import Mathlib

/-
  Shallow embedding of the CFG ambiguity-analysis engine
  (grammar parser/serializer, FIRST/FOLLOW engine, ambiguity heuristics,
  transformation pipeline, parse-tree generator) together with proofs
  settling the specification claims.

  Sources embedded:
    - src/src/engine/parser.ts      (parseGrammar, grammarToString, checkBothSideRecursion)
    - src/src/engine/types.ts       (data model, computeFirstFollow, computeFirstOfString)
    - src/src/engine/parsetree.ts   (generateParseTrees, buildTreeFromBody)
    - src/unnamed/part_000          (transformGrammar and the four rewrite passes)
-/

namespace CFG

/-- `Symbol` from types.ts: tagged variant with a text payload.
    The TS type is a string union 'terminal' | 'nonterminal' | 'epsilon'. -/
inductive SymType where
  | terminal
  | nonterminal
  | epsilon
deriving DecidableEq, Repr

structure Symbol where
  type : SymType
  value : String
deriving DecidableEq, Repr

/-- `Grammar` from types.ts. `Set<string>` and `Map<string, Symbol[][]>`
    preserve insertion order in JS, so they are modelled as lists /
    association lists in insertion order. -/
structure Grammar where
  startSymbol : String
  nonTerminals : List String
  terminals : List String
  productions : List (String × List (List Symbol))
deriving DecidableEq, Repr

structure ValidationError where
  line : Nat
  column : Nat
  message : String
deriving DecidableEq, Repr

structure AmbiguityReason where
  type : String
  description : String
  involvedRules : List String
  severity : String
deriving DecidableEq, Repr

structure TransformationStep where
  name : String
  description : String
  before : String
  after : String
deriving DecidableEq, Repr

structure TransformationResult where
  success : Bool
  grammar : Grammar
  steps : List TransformationStep
  explanation : String
deriving DecidableEq, Repr

/-- `ParseTreeNode` as in the spec data model (§3): label, isTerminal,
    ordered children.  The display-only `id` counter field is presentation
    state and is not part of the structural model. -/
inductive ParseTreeNode where
  | mk (label : String) (isTerminal : Bool) (children : List ParseTreeNode)

def ParseTreeNode.label : ParseTreeNode → String
  | .mk l _ _ => l

def ParseTreeNode.isTerminal : ParseTreeNode → Bool
  | .mk _ t _ => t

def ParseTreeNode.children : ParseTreeNode → List ParseTreeNode
  | .mk _ _ c => c

structure FirstFollowSets where
  first : List (String × List String)
  follow : List (String × List String)
deriving DecidableEq, Repr

/-! ### Ordered-map and ordered-set primitives (JS `Map` / `Set`) -/

/-- `Map.get`: first entry with the given key. -/
def mapGet {α : Type} : List (String × α) → String → Option α
  | [], _ => none
  | (k, v) :: rest, key => if k = key then some v else mapGet rest key

/-- `Map.set`: replace in place if present, else append (JS insertion order). -/
def mapSet {α : Type} : List (String × α) → String → α → List (String × α)
  | [], key, v => [(key, v)]
  | (k, w) :: rest, key, v =>
    if k = key then (key, v) :: rest else (k, w) :: mapSet rest key v

/-- `Set.add`: append if absent (JS insertion order). -/
def insertUniq (l : List String) (x : String) : List String :=
  if x ∈ l then l else l ++ [x]

/-! ### Character and string primitives used by the parser -/

/-- JS `\s` / `String.trim` whitespace. -/
def isWS (c : Char) : Bool := c.isWhitespace

/-- The apostrophe character, used for generated names like `E'`. -/
def primeStr : String := ⟨[Char.ofNat 39]⟩

/-- JS `String.trim` on char lists. -/
def trimL (cs : List Char) : List Char :=
  ((cs.dropWhile isWS).reverse.dropWhile isWS).reverse

/-- JS `split(sep)` for a single-character separator, on char lists. -/
def splitCh (c : Char) : List Char → List (List Char)
  | [] => [[]]
  | d :: rest =>
    match splitCh c rest with
    | [] => if d = c then [[], []] else [[d]]
    | t :: ts => if d = c then [] :: t :: ts else (d :: t) :: ts

/-- JS `split(/\s+/)` on an already-trimmed string: maximal non-whitespace
    runs.  `acc` is the current word accumulated in reverse. -/
def wordsGo : List Char → List Char → List (List Char)
  | [], acc => if acc = [] then [] else [acc.reverse]
  | c :: rest, acc =>
    if isWS c then
      if acc = [] then wordsGo rest [] else acc.reverse :: wordsGo rest []
    else wordsGo rest (c :: acc)

def wordsL (cs : List Char) : List (List Char) := wordsGo cs []

/-- Head-name test `^[A-Z][A-Za-z0-9'_]*$` from parser.ts. -/
def isHeadChar (c : Char) : Bool :=
  (('A' ≤ c && c ≤ 'Z') || ('a' ≤ c && c ≤ 'z') || ('0' ≤ c && c ≤ '9')
    || c = Char.ofNat 39 || c = '_')

def isHeadNameL (cs : List Char) : Bool :=
  match cs with
  | [] => false
  | c :: rest => ('A' ≤ c && c ≤ 'Z') && rest.all isHeadChar

def isHeadName (s : String) : Bool := isHeadNameL s.data

/-- One candidate match of `^(\S+)\s*->\s*(.+)$` with group 1 of length `k`:
    after the group-1 prefix, greedy `\s*`, then the literal `->`, greedy
    `\s*` (backing off one trailing whitespace character when `(.+)` would
    otherwise be empty), then the non-empty remainder as group 2. -/
def matchAt (cs : List Char) (k : Nat) : Option (List Char × List Char) :=
  let g1 := cs.take k
  let rest := cs.drop k
  match rest.dropWhile isWS with
  | c1 :: c2 :: r2 =>
    if c1 = '-' ∧ c2 = '>' then
      match r2.dropWhile isWS with
      | [] =>
        match r2.getLast? with
        | some c => some (g1, [c])
        | none => none
      | g2 => some (g1, g2)
    else none
  | _ => none

/-- Whether `'>'` heads the list (helper for the arrow-pair test). -/
def isGtHead : List Char → Bool
  | '>' :: _ => true
  | _ => false

/-- Whether the character pair `->` occurs (adjacent) in the list. -/
def hasArrowTok : List Char → Bool
  | [] => false
  | c :: rest => (c == '-' && isGtHead rest) || hasArrowTok rest

/-- Greedy `\S+` with backtracking: try the longest group-1 first. -/
def tryFrom (cs : List Char) : Nat → Option (List Char × List Char)
  | 0 => none
  | k + 1 =>
    match matchAt cs (k + 1) with
    | some r => some r
    | none => tryFrom cs k

/-- `line.match(/^(\S+)\s*->\s*(.+)$/)` from parser.ts (groups 1 and 2). -/
def matchArrowL (cs : List Char) : Option (List Char × List Char) :=
  tryFrom cs (cs.takeWhile (fun c => !isWS c)).length

/-! ### parseGrammar (parser.ts) -/

/-- Token classification from `parseSymbols` in parser.ts. -/
def classifyTok (t : String) : Symbol :=
  if t = "ε" ∨ t = "epsilon" ∨ t = "eps" then ⟨.epsilon, "ε"⟩
  else if isHeadName t then ⟨.nonterminal, t⟩
  else ⟨.terminal, t⟩

/-- `parseSymbols` from parser.ts: `body.trim().split(/\s+/)` then classify.
    JS `"".split(/\s+/)` yields `[""]`, hence the empty-words fallback. -/
def parseSymbols (body : String) : List Symbol :=
  match wordsL (trimL body.data) with
  | [] => [classifyTok ""]
  | ws => ws.map (fun w => classifyTok ⟨w⟩)

/-- `bodyStr.split('|').map(s => s.trim())`. -/
def lineAlternatives (bodyStr : String) : List String :=
  (splitCh '|' bodyStr.data).map (fun cs => (⟨trimL cs⟩ : String))

def invalidFormatMsg : String :=
  "Invalid production format. Expected: NonTerminal -> Production1 | Production2"

def badHeadMsg (head : String) : String :=
  "Non-terminal \"" ++ head ++ "\" must start with uppercase letter"

def emptyAltMsg (head : String) : String :=
  "Empty alternative in production for " ++ head

def undefinedMsg (nt : String) : String :=
  "Non-terminal \"" ++ nt ++ "\" is used but never defined"

/-- The alternatives loop of parseGrammar: errors for empty alternatives,
    parsed bodies for the rest, both in source order. -/
def altScan (ln : Nat) (head : String) : List String → List ValidationError × List (List Symbol)
  | [] => ([], [])
  | a :: rest =>
    let (es, bs) := altScan ln head rest
    if a = "" then (⟨ln, 1, emptyAltMsg head⟩ :: es, bs) else (es, parseSymbols a :: bs)

structure ParseState where
  errors : List ValidationError
  productions : List (String × List (List Symbol))
  nonTerminals : List String
  startSymbol : String
deriving DecidableEq, Repr

def isCommentL (cs : List Char) : Bool :=
  match cs with
  | '/' :: '/' :: _ => true
  | _ => false

/-- One iteration of the line loop of parseGrammar (0-based index `i`). -/
def processLine (i : Nat) (raw : String) (st : ParseState) : ParseState :=
  let line := trimL raw.data
  if line = [] ∨ isCommentL line then st
  else
    match matchArrowL line with
    | none => { st with errors := st.errors ++ [⟨i + 1, 1, invalidFormatMsg⟩] }
    | some (headCs, bodyCs) =>
      let head : String := ⟨headCs⟩
      if ¬ isHeadName head then
        { st with errors := st.errors ++ [⟨i + 1, 1, badHeadMsg head⟩] }
      else
        let nts := insertUniq st.nonTerminals head
        let start := if st.startSymbol = "" then head else st.startSymbol
        let ab := altScan (i + 1) head (lineAlternatives ⟨bodyCs⟩)
        { errors := st.errors ++ ab.1
          productions := mapSet st.productions head ((mapGet st.productions head).getD [] ++ ab.2)
          nonTerminals := nts
          startSymbol := start }

def processLines : Nat → List String → ParseState → ParseState
  | _, [], st => st
  | i, l :: rest, st => processLines (i + 1) rest (processLine i l st)

/-- The classification pass of parseGrammar: collect non-terminal and
    terminal values used in bodies, in production order. -/
def classifySyms (b : List Symbol) (acc : List String × List String) : List String × List String :=
  b.foldl
    (fun acc s =>
      match s.type with
      | .nonterminal => (insertUniq acc.1 s.value, acc.2)
      | .terminal => (acc.1, insertUniq acc.2 s.value)
      | .epsilon => acc)
    acc

def classifyAll (prods : List (String × List (List Symbol))) (nts : List String) :
    List String × List String :=
  prods.foldl (fun acc p => p.2.foldl (fun acc b => classifySyms b acc) acc) (nts, [])

/-- The used-but-never-defined check of parseGrammar. -/
def undefinedErrors (nts : List String) (prods : List (String × List (List Symbol))) :
    List ValidationError :=
  nts.filterMap (fun nt =>
    if (mapGet prods nt).isNone ∧ nt ≠ "ε" then some ⟨0, 0, undefinedMsg nt⟩ else none)

/-- The final return of parseGrammar: `errors.length > 0` yields
    `null` plus the errors, otherwise the grammar with zero errors. -/
def finishParse (g : Grammar) (errs : List ValidationError) :
    Option Grammar × List ValidationError :=
  if errs = [] then (some g, []) else (none, errs)

/-- `parseGrammar` from parser.ts. -/
def parseGrammar (input : String) : Option Grammar × List ValidationError :=
  let lines := (splitCh '\n' input.data).map (fun cs => (⟨cs⟩ : String))
  let st := processLines 0 lines ⟨[], [], [], ""⟩
  let errs1 := st.errors ++
    (if st.productions = [] ∧ st.errors = [] then [⟨1, 1, "No productions found"⟩] else [])
  let cls := classifyAll st.productions st.nonTerminals
  let errs2 := errs1 ++ undefinedErrors cls.1 st.productions
  finishParse ⟨st.startSymbol, cls.1, cls.2, st.productions⟩ errs2

/-! ### grammarToString (parser.ts) -/

def interL (sep : List Char) : List (List Char) → List Char
  | [] => []
  | [p] => p
  | p :: q :: rest => p ++ sep ++ interL sep (q :: rest)

def joinSep (sep : String) (parts : List String) : String :=
  ⟨interL sep.data (parts.map String.data)⟩

def formatProduction (head : String) (bodies : List (List Symbol)) : String :=
  head ++ " -> " ++ joinSep " | " (bodies.map (fun b => joinSep " " (b.map Symbol.value)))

/-- `grammarToString` from parser.ts: start symbol first, then remaining
    heads in stored order. -/
def grammarToString (g : Grammar) : String :=
  let startLines :=
    match mapGet g.productions g.startSymbol with
    | some bs => [formatProduction g.startSymbol bs]
    | none => []
  let rest := (g.productions.filter (fun p => p.1 ≠ g.startSymbol)).map
    (fun p => formatProduction p.1 p.2)
  joinSep "\n" (startLines ++ rest)

/-! ### FIRST/FOLLOW engine (types.ts: computeFirstFollow, computeFirstOfString) -/

/-- `Set.add` with change tracking, for the worklist loops. -/
def addUniq (l : List String) (x : String) : List String × Bool :=
  if x ∈ l then (l, false) else (l ++ [x], true)

/-- The accumulation loop of `computeFirstOfString`.  `acc` is the `result`
    set built so far (the loop mutates one shared set). -/
def fosAux (first : List (String × List String)) : List Symbol → List String → List String
  | [], acc => acc
  | s :: rest, acc =>
    match s.type with
    | .epsilon => (addUniq acc "ε").1
    | .terminal => (addUniq acc s.value).1
    | .nonterminal =>
      match mapGet first s.value with
      | none => (addUniq acc s.value).1
      | some fs =>
        let acc' := fs.foldl (fun a f => if f ≠ "ε" then (addUniq a f).1 else a) acc
        if "ε" ∈ fs then
          if rest = [] then (addUniq acc' "ε").1 else fosAux first rest acc'
        else acc'

/-- `computeFirstOfString` from types.ts. -/
def computeFirstOfString (symbols : List Symbol) (first : List (String × List String)) :
    List String :=
  if symbols = [] then ["ε"] else fosAux first symbols []

/-- Add every element of `xs` to the set stored at key `k` (no-op on a
    missing key, where the JS non-null assertion would throw). -/
def mapAddAll (m : List (String × List String)) (k : String) (xs : List String) :
    List (String × List String) × Bool :=
  match mapGet m k with
  | none => (m, false)
  | some s =>
    let s' := xs.foldl (fun a x => (addUniq a x).1) s
    (mapSet m k s', decide (s' ≠ s))

/-- One pass of the FIRST fixed-point loop. -/
def firstPass (g : Grammar) (st : List (String × List String) × Bool) :
    List (String × List String) × Bool :=
  g.productions.foldl
    (fun st p =>
      p.2.foldl
        (fun st body =>
          let res := computeFirstOfString body st.1
          let (m, ch) := mapAddAll st.1 p.1 res
          (m, st.2 || ch))
        st)
    st

def firstLoop (g : Grammar) : Nat → List (String × List String) → List (String × List String)
  | 0, m => m
  | fuel + 1, m =>
    let (m', ch) := firstPass g (m, false)
    if ch then firstLoop g fuel m' else m'

/-- The body of the FOLLOW loop for one production body: for every
    non-terminal occurrence, absorb `FIRST(rest) \ {ε}` and, when `rest`
    can vanish, all of `FOLLOW(head)`. -/
def followBody (g : Grammar) (first : List (String × List String)) (head : String) :
    List Symbol → List (String × List String) × Bool → List (String × List String) × Bool
  | [], st => st
  | s :: rest, st =>
    let st' :=
      if s.type = SymType.nonterminal then
        let firstOfRest := computeFirstOfString rest first
        let (m1, c1) := mapAddAll st.1 s.value (firstOfRest.filter (fun f => f ≠ "ε"))
        let (m2, c2) :=
          if "ε" ∈ firstOfRest ∨ rest = [] then
            mapAddAll m1 s.value ((mapGet m1 head).getD [])
          else (m1, false)
        (m2, st.2 || c1 || c2)
      else st
    followBody g first head rest st'

def followPass (g : Grammar) (first : List (String × List String))
    (st : List (String × List String) × Bool) : List (String × List String) × Bool :=
  g.productions.foldl
    (fun st p => p.2.foldl (fun st body => followBody g first p.1 body st) st)
    st

def followLoop (g : Grammar) (first : List (String × List String)) :
    Nat → List (String × List String) → List (String × List String)
  | 0, m => m
  | fuel + 1, m =>
    let (m', ch) := followPass g first (m, false)
    if ch then followLoop g first fuel m' else m'

/-- Fuel bounding the monotone fixed-point loops: the number of sets times
    the number of candidate strings, plus one.  Each non-final iteration
    adds at least one string to some set, so this always suffices. -/
def loopFuel (g : Grammar) : Nat :=
  let n := g.nonTerminals.length + g.terminals.length +
    (g.productions.map (fun p => (p.2.map List.length).sum)).sum + 2
  n * n + 1

/-- `computeFirstFollow` from types.ts. -/
def computeFirstFollow (g : Grammar) : FirstFollowSets :=
  let first0 := g.nonTerminals.foldl (fun m nt => mapSet m nt []) []
  let first1 := g.terminals.foldl (fun m t => mapSet m t [t]) first0
  let first := firstLoop g (loopFuel g) first1
  let follow0 := g.nonTerminals.foldl (fun m nt => mapSet m nt []) []
  let follow1 := (mapAddAll follow0 g.startSymbol ["$"]).1
  let follow := followLoop g first (loopFuel g) follow1
  ⟨first, follow⟩

/-! ### Mixed-recursion detector (parser.ts: checkBothSideRecursion) -/

def isNTOf (head : String) (s : Symbol) : Bool :=
  s.type = SymType.nonterminal && s.value = head

def ruleText (head : String) (b : List Symbol) : String :=
  head ++ " -> " ++ joinSep " " (b.map Symbol.value)

def mixedRecMsg (head : String) : String :=
  "Non-terminal \"" ++ head ++ "\" has both left-recursive and right-recursive productions, " ++
    "which can lead to ambiguity in certain derivations."

/-- The per-head body loop of `checkBothSideRecursion`: one reason is pushed
    for every left-recursive, not right-recursive body of length ≥ 2,
    provided some body of length ≥ 2 ends with the head and does not begin
    with a non-terminal. -/
def mixedReasonsForHead (head : String) (bodies : List (List Symbol)) : List AmbiguityReason :=
  bodies.filterMap (fun body =>
    if 2 ≤ body.length ∧
        (body.head?.map (isNTOf head)).getD false = true ∧
        ¬ (body.getLast?.map (isNTOf head)).getD false = true ∧
        bodies.any (fun b =>
          2 ≤ b.length && (b.getLast?.map (isNTOf head)).getD false &&
            !(b.head?.map (fun s => decide (s.type = SymType.nonterminal))).getD false) = true
    then some ⟨"Mixed Recursion", mixedRecMsg head, bodies.map (ruleText head), "medium"⟩
    else none)

/-- `checkBothSideRecursion` from parser.ts (reasons appended per head in
    production order). -/
def checkBothSideRecursion (g : Grammar) : List AmbiguityReason :=
  g.productions.flatMap (fun p => mixedReasonsForHead p.1 p.2)

/-! ### Transformation pipeline (unnamed/part_000) -/

def NT (v : String) : Symbol := ⟨.nonterminal, v⟩
def Tm (v : String) : Symbol := ⟨.terminal, v⟩
def Eps : Symbol := ⟨.epsilon, "ε"⟩

/-- The `E -> E op E` pattern split of `applyOperatorPrecedence`:
    3-symbol bodies `head op head` with a terminal operator become
    `(op, body)` pairs, everything else is a base body. -/
def opSplit (head : String) (bodies : List (List Symbol)) :
    List (String × List Symbol) × List (List Symbol) :=
  bodies.foldr
    (fun body acc =>
      match body with
      | [a, b, c] =>
        if isNTOf head a && (b.type = SymType.terminal) && isNTOf head c then
          ((b.value, body) :: acc.1, acc.2)
        else (acc.1, body :: acc.2)
      | _ => (acc.1, body :: acc.2))
    ([], [])

def isHighPrec (op : String) : Bool := op = "*" || op = "/" || op = "%"

/-- `applyOperatorPrecedence` from unnamed/part_000.  Note that `changed`
    is set as soon as ≥ 2 operator patterns exist, before the bucket check,
    mirroring the source. -/
def applyOperatorPrecedence (g : Grammar) : Grammar × Bool :=
  let res := g.productions.foldl
    (fun (acc : List (String × List (List Symbol)) × List String × Bool) p =>
      let head := p.1
      let (ops, nonOpBodies) := opSplit head p.2
      if 2 ≤ ops.length then
        let highPrec := ops.filter (fun q => isHighPrec q.1)
        let lowPrec := ops.filter (fun q => !isHighPrec q.1)
        if highPrec ≠ [] ∧ lowPrec ≠ [] then
          let termName := head ++ "T"
          let factName := head ++ "F"
          let eBodies := lowPrec.map (fun q => [NT head, Tm q.1, NT termName]) ++ [[NT termName]]
          let tBodies := highPrec.map (fun q => [NT termName, Tm q.1, NT factName]) ++ [[NT factName]]
          let fBodies0 := nonOpBodies.map (fun b =>
            b.map (fun s => if s.type = SymType.nonterminal ∧ s.value = head
              then { s with value := factName } else s))
          let fBodies := if fBodies0 = [] then [[Tm "id"]] else fBodies0
          (mapSet (mapSet (mapSet acc.1 head eBodies) termName tBodies) factName fBodies,
            insertUniq (insertUniq acc.2.1 termName) factName, true)
        else (acc.1, acc.2.1, true)
      else acc)
    (g.productions, g.nonTerminals, false)
  ({ g with productions := res.1, nonTerminals := res.2.1 }, res.2.2)

def isLeftRecBody (head : String) (b : List Symbol) : Bool :=
  (b.head?.map (isNTOf head)).getD false

/-- The split of `eliminateLeftRecursion`: tails of left-recursive bodies
    (first symbol dropped) and the remaining bodies, in order. -/
def lrSplit (head : String) (bodies : List (List Symbol)) :
    List (List Symbol) × List (List Symbol) :=
  ((bodies.filter (isLeftRecBody head)).map (fun b => b.drop 1),
    bodies.filter (fun b => !isLeftRecBody head b))

/-- The per-head body of `eliminateLeftRecursion`'s loop. -/
def lrStep (acc : List (String × List (List Symbol)) × List String × Bool)
    (p : String × List (List Symbol)) :
    List (String × List (List Symbol)) × List String × Bool :=
  let head := p.1
  let leftRec := (lrSplit head p.2).1
  let nonLeftRec := (lrSplit head p.2).2
  if leftRec ≠ [] ∧ nonLeftRec ≠ [] then
    let primeName := head ++ primeStr
    let newBodies := nonLeftRec.map (fun b => b ++ [NT primeName])
    let primeBodies := leftRec.map (fun tl => tl ++ [NT primeName]) ++ [[Eps]]
    (mapSet (mapSet acc.1 head newBodies) primeName primeBodies,
      insertUniq acc.2.1 primeName, true)
  else acc

/-- `eliminateLeftRecursion` from unnamed/part_000. -/
def eliminateLeftRecursion (g : Grammar) : Grammar × Bool :=
  let res := g.productions.foldl lrStep (g.productions, g.nonTerminals, false)
  ({ g with productions := res.1, nonTerminals := res.2.1 }, res.2.2)

def symTypeTag : SymType → String
  | .terminal => "terminal"
  | .nonterminal => "nonterminal"
  | .epsilon => "epsilon"

def groupKey (s : Symbol) : String := symTypeTag s.type ++ ":" ++ s.value

/-- The group-by-first-symbol map of `leftFactor` (insertion order,
    zero-length bodies skipped). -/
def groupByFirst (bodies : List (List Symbol)) : List (String × List (List Symbol)) :=
  bodies.foldl
    (fun gs b =>
      match b.head? with
      | none => gs
      | some s => mapSet gs (groupKey s) ((mapGet gs (groupKey s)).getD [] ++ [b]))
    []

/-- The shared-prefix length of a group (`leftFactor`). -/
def commonPrefixLen (group : List (List Symbol)) : Nat :=
  match group with
  | [] => 0
  | b0 :: rest =>
    let minLen := (group.map List.length).foldl min b0.length
    (List.range minLen).foldl
      (fun acc k =>
        if acc = k ∧ (rest.all (fun b => b.getD k Eps = b0.getD k Eps)) then acc + 1 else acc)
      0

/-- `leftFactor` from unnamed/part_000; the fresh-name counter is scoped to
    one pass invocation and shared across heads. -/
def leftFactor (g : Grammar) : Grammar × Bool :=
  let res := g.productions.foldl
    (fun (acc : List (String × List (List Symbol)) × List String × Nat × Bool) p =>
      let head := p.1
      if p.2.length < 2 then acc
      else
        let groups := groupByFirst p.2
        if ¬ groups.any (fun gr => 1 < gr.2.length) then acc
        else
          let inner := groups.foldl
            (fun (a : List (List Symbol) × List (String × List (List Symbol)) × List String × Nat) gr =>
              match gr.2 with
              | [b] => (a.1 ++ [b], a.2)
              | group =>
                let plen := commonPrefixLen group
                let newNT := head ++ toString a.2.2.2
                let pre := (group.headD []).take plen
                let sfx := group.map (fun b =>
                  let r := b.drop plen
                  if r = [] then [Eps] else r)
                (a.1 ++ [pre ++ [NT newNT]],
                  mapSet a.2.1 newNT sfx, insertUniq a.2.2.1 newNT, a.2.2.2 + 1))
            ([], acc.1, acc.2.1, acc.2.2.1)
          (mapSet inner.2.1 head inner.1, inner.2.2.1, inner.2.2.2, true))
    (g.productions, g.nonTerminals, 1, false)
  ({ g with productions := res.1, nonTerminals := res.2.1 }, res.2.2.2)

def hasIfAndElse (b : List Symbol) : Bool :=
  b.any (fun s => s.value = "if") && b.any (fun s => s.value = "else")

def hasIfNoElse (b : List Symbol) : Bool :=
  b.any (fun s => s.value = "if") && !b.any (fun s => s.value = "else")

/-- `resolveDanglingElse` from unnamed/part_000. -/
def resolveDanglingElse (g : Grammar) : Grammar × Bool :=
  let res := g.productions.foldl
    (fun (acc : List (String × List (List Symbol)) × List String × Bool) p =>
      let head := p.1
      if p.2.any hasIfAndElse ∧ p.2.any hasIfNoElse then
        let matchedNT := head ++ "M"
        let unmatchedNT := head ++ "U"
        let baseBodies := p.2.filter (fun b => !b.any (fun s => s.value = "if"))
        let headBodies := [[NT matchedNT], [NT unmatchedNT]]
        let matchedBodies := baseBodies ++
          [[Tm "if", Tm "cond", Tm "then", NT matchedNT, Tm "else", NT matchedNT]]
        let unmatchedBodies :=
          [[Tm "if", Tm "cond", Tm "then", NT head],
           [Tm "if", Tm "cond", Tm "then", NT matchedNT, Tm "else", NT unmatchedNT]]
        (mapSet (mapSet (mapSet acc.1 head headBodies) matchedNT matchedBodies)
            unmatchedNT unmatchedBodies,
          insertUniq (insertUniq acc.2.1 matchedNT) unmatchedNT, true)
      else acc)
    (g.productions, g.nonTerminals, false)
  ({ g with productions := res.1, nonTerminals := res.2.1 }, res.2.2)

/-- `cloneGrammar`: a structural copy (identity in the pure model). -/
def cloneGrammar (g : Grammar) : Grammar :=
  ⟨g.startSymbol, g.nonTerminals, g.terminals, g.productions⟩

def descOpPrec : String :=
  "Restructured grammar to enforce operator precedence and left associativity by " ++
    "introducing new non-terminals for each precedence level."

def descLeftRec : String :=
  "Eliminated direct left recursion by introducing new non-terminals with " ++
    "right-recursive epsilon productions."

def descLeftFactor : String :=
  "Factored common prefixes into shared non-terminals to eliminate prefix conflicts."

def descDangling : String :=
  "Resolved dangling else by separating matched and unmatched statement non-terminals."

def noTransformExplanation : String :=
  "No applicable transformations were found. The grammar may be inherently ambiguous, " ++
    "or it may require manual restructuring that is beyond automated heuristic transformation."

/-- `transformGrammar` from unnamed/part_000: the four ordered passes, each
    logging a before/after step when its `changed` flag is set. -/
def transformGrammar (g : Grammar) : TransformationResult :=
  let c0 := cloneGrammar g
  let (g1, ch1) := applyOperatorPrecedence c0
  let steps1 := if ch1 then
    [⟨"Operator Precedence & Associativity", descOpPrec, grammarToString c0, grammarToString g1⟩]
    else []
  let cur1 := if ch1 then g1 else c0
  let (g2, ch2) := eliminateLeftRecursion cur1
  let steps2 := if ch2 then
    steps1 ++ [⟨"Left Recursion Elimination", descLeftRec, grammarToString cur1, grammarToString g2⟩]
    else steps1
  let cur2 := if ch2 then g2 else cur1
  let (g3, ch3) := leftFactor cur2
  let steps3 := if ch3 then
    steps2 ++ [⟨"Left Factoring", descLeftFactor, grammarToString cur2, grammarToString g3⟩]
    else steps2
  let cur3 := if ch3 then g3 else cur2
  let (g4, ch4) := resolveDanglingElse cur3
  let steps4 := if ch4 then
    steps3 ++ [⟨"Dangling Else Resolution", descDangling, grammarToString cur3, grammarToString g4⟩]
    else steps3
  let cur4 := if ch4 then g4 else cur3
  if ch1 || ch2 || ch3 || ch4 then
    ⟨true, cur4, steps4,
      "Applied " ++ toString steps4.length ++ " transformation(s) to reduce ambiguity. " ++
        "Review the converted grammar to verify language preservation."⟩
  else
    ⟨false, cur4, [], noTransformExplanation⟩

/-! ### Parse-tree generator (parsetree.ts) -/

/-- `buildTreeFromBody` with explicit fuel (`maxDepth + 1 - depth` at every
    call, so the recursion is structural): terminal/epsilon symbols become
    leaves; a non-terminal child expands with the FIRST alternative
    (`bodies[0]`) while `depth < maxDepth`. -/
def buildAux (g : Grammar) : Nat → List Symbol → Nat → Nat → List ParseTreeNode
  | 0, _, _, _ => []
  | fuel + 1, body, depth, maxDepth =>
    if maxDepth < depth then []
    else
      body.map (fun sym =>
        match sym.type with
        | .epsilon => .mk "ε" true []
        | .terminal => .mk sym.value true []
        | .nonterminal =>
          .mk sym.value false
            (match mapGet g.productions sym.value with
             | some bs =>
               if 0 < bs.length ∧ depth < maxDepth then
                 buildAux g fuel (bs.headD []) (depth + 1) maxDepth
               else []
             | none => []))

/-- `buildTreeFromBody` from parsetree.ts. -/
def buildTreeFromBody (g : Grammar) (body : List Symbol) (depth maxDepth : Nat) :
    List ParseTreeNode :=
  buildAux g (maxDepth + 1 - depth) body depth maxDepth

/-- `generateParseTrees` from parsetree.ts: one tree per start-symbol
    alternative (up to `maxTrees`), each root expanded by
    `buildTreeFromBody` at depth 0.  (The internal `derive` helper in the
    source is dead code: the returned trees come only from
    `buildTreeFromBody`.)  The `input` parameter is kept for signature
    fidelity and is unused, as in the live code path. -/
def generateParseTrees (g : Grammar) (_input : List String)
    (maxTrees : Nat := 2) (maxDepth : Nat := 10) : List ParseTreeNode :=
  match mapGet g.productions g.startSymbol with
  | none => []
  | some startBodies =>
    (startBodies.take maxTrees).map
      (fun body => .mk g.startSymbol false (buildTreeFromBody g body 0 maxDepth))

/-! ### Concrete grammars used in the claim theorems and witnesses -/

/-- `E -> E * E | E / E | id`, as parseGrammar builds it: two operator
    alternatives, both in the high-precedence bucket. -/
def gOpHigh : Grammar :=
  ⟨"E", ["E"], ["*", "/", "id"],
    [("E", [[NT "E", Tm "*", NT "E"], [NT "E", Tm "/", NT "E"], [Tm "id"]])]⟩

/-- `A -> A | b`: the left-recursive alternative is the bare head, so the
    rewrite produces `A' -> A' | ε`, which is again left-recursive. -/
def gBare : Grammar := ⟨"A", ["A"], ["b"], [("A", [[NT "A"], [Tm "b"]])]⟩

/-- `E -> E + T | T` with `T -> i`: the textbook left-recursion input. -/
def gLR : Grammar :=
  ⟨"E", ["E", "T"], ["+", "i"],
    [("E", [[NT "E", Tm "+", NT "T"], [NT "T"]]), ("T", [[Tm "i"]])]⟩

/-- `A -> a A b | ε`, as parseGrammar builds it (claim C4's grammar). -/
def gC4 : Grammar := ⟨"A", ["A"], ["a", "b"], [("A", [[Tm "a", NT "A", Tm "b"], [Eps]])]⟩

/-- `A -> A x | B y A | z` with `B -> b`: the right-recursive alternative
    starts with the non-terminal `B`, not with `A` itself. -/
def gMixed : Grammar :=
  ⟨"A", ["A", "B"], ["x", "y", "z", "b"],
    [("A", [[NT "A", Tm "x"], [NT "B", Tm "y", NT "A"], [Tm "z"]]), ("B", [[Tm "b"]])]⟩

/-- `S -> A` with `A -> a b | c`: A's first alternative has two symbols,
    its second only one. -/
def gFirstAlt : Grammar :=
  ⟨"S", ["S", "A"], ["a", "b", "c"],
    [("S", [[NT "A"]]), ("A", [[Tm "a", Tm "b"], [Tm "c"]])]⟩

/-! ### Invariants established by a successful parse (round-trip proof) -/

/-- A symbol as produced by the tokenizer: non-empty value without
    whitespace or `|`, and stable under re-classification. -/
def SymWF (s : Symbol) : Prop :=
  s.value.data ≠ [] ∧ (∀ c ∈ s.value.data, isWS c = false ∧ c ≠ '|') ∧
    classifyTok s.value = s

/-- A production body as produced by the parser: non-empty, all symbols
    well-formed. -/
def BodyWF (b : List Symbol) : Prop := b ≠ [] ∧ ∀ s ∈ b, SymWF s

/-- A production entry as produced by the parser. -/
def EntryWF (h : String) (bs : List (List Symbol)) : Prop :=
  isHeadName h = true ∧ bs ≠ [] ∧ ∀ b ∈ bs, BodyWF b

/-- The shape of every grammar returned by a successful `parseGrammar` run:
    non-empty ordered productions with distinct well-formed heads, the first
    head being the start symbol, and every non-terminal occurrence either
    defined or the epsilon marker. -/
def GrammarWF (g : Grammar) : Prop :=
  g.productions ≠ [] ∧
  g.productions.head?.map Prod.fst = some g.startSymbol ∧
  (g.productions.map Prod.fst).Nodup ∧
  (∀ e ∈ g.productions, EntryWF e.1 e.2) ∧
  (∀ e ∈ g.productions, ∀ b ∈ e.2, ∀ s ∈ b, s.type = SymType.nonterminal →
    (mapGet g.productions s.value).isSome = true ∨ s.value = "ε")

/-- The state invariant of the line loop of `parseGrammar`: the first
    production key is the start symbol once one exists, keys stay distinct,
    and while no error has been recorded every stored entry is well-formed. -/
def StInv (st : ParseState) : Prop :=
  ((st.productions = [] ∧ st.startSymbol = "") ∨
    (st.productions.head?.map Prod.fst = some st.startSymbol ∧ st.startSymbol ≠ "")) ∧
  (st.productions.map Prod.fst).Nodup ∧
  (st.errors = [] → ∀ e ∈ st.productions, EntryWF e.1 e.2)

/-! ## Theorems -/

/-! ### Generic lemmas about the ordered-map primitives -/

theorem mapGet_mapSet_self {α : Type} (m : List (String × α)) (k : String) (v : α) :
    mapGet (mapSet m k v) k = some v := by
  induction m with
  | nil => simp [mapGet, mapSet]
  | cons p rest ih =>
    by_cases h : p.1 = k
    · simp [mapSet, h, mapGet]
    · cases p with
      | mk k' v' =>
        simp only at h
        simp [mapSet, h, mapGet, ih]

theorem mapGet_mapSet_other {α : Type} (m : List (String × α)) (k k' : String) (v : α)
    (h : k' ≠ k) : mapGet (mapSet m k v) k' = mapGet m k' := by
  have hk : ¬ k = k' := fun hk => h hk.symm
  induction m with
  | nil => simp [mapGet, mapSet, hk]
  | cons p rest ih =>
    cases p with
    | mk a b =>
      by_cases ha : a = k
      · subst ha
        simp [mapSet, mapGet, hk]
      · simp only [mapSet, if_neg ha, mapGet, ih]

theorem mapSet_key_mem {α : Type} (m : List (String × α)) (k : String) (v : α) (x : String)
    (h : x ∈ (mapSet m k v).map Prod.fst) : x ∈ m.map Prod.fst ∨ x = k := by
  induction m with
  | nil =>
    right
    simpa [mapSet] using h
  | cons p rest ih =>
    cases p with
    | mk a b =>
      by_cases ha : a = k
      · subst ha
        have hx : x ∈ a :: rest.map Prod.fst := by simpa [mapSet] using h
        rcases List.mem_cons.mp hx with h1 | h1
        · left; simp [h1]
        · left
          simp only [List.map_cons]
          exact List.mem_cons_of_mem _ h1
      · have hx : x ∈ a :: (mapSet rest k v).map Prod.fst := by simpa [mapSet, ha] using h
        rcases List.mem_cons.mp hx with h1 | h1
        · left; simp [h1]
        · rcases ih h1 with h' | h'
          · left
            simp only [List.map_cons]
            exact List.mem_cons_of_mem _ h'
          · right; exact h'

theorem mapSet_keys_nodup {α : Type} (m : List (String × α)) (k : String) (v : α)
    (h : (m.map Prod.fst).Nodup) : ((mapSet m k v).map Prod.fst).Nodup := by
  induction m with
  | nil => simp [mapSet]
  | cons p rest ih =>
    cases p with
    | mk a b =>
      simp only [List.map_cons, List.nodup_cons] at h
      by_cases ha : a = k
      · subst ha
        simpa [mapSet, List.nodup_cons] using h
      · simp only [mapSet, if_neg ha, List.map_cons, List.nodup_cons]
        refine ⟨fun hmem => ?_, ih h.2⟩
        rcases mapSet_key_mem rest k v a hmem with h' | h'
        · exact h.1 h'
        · exact ha h'

theorem mem_mapSet_nodup {α : Type} (m : List (String × α)) (k : String) (v : α)
    (e : String × α) :
    (m.map Prod.fst).Nodup → e ∈ mapSet m k v → e = (k, v) ∨ (e ∈ m ∧ e.1 ≠ k) := by
  induction m with
  | nil =>
    intro _ h
    simp [mapSet] at h
    left; exact h
  | cons p rest ih =>
    intro hnd h
    cases p with
    | mk a b =>
      simp only [List.map_cons, List.nodup_cons] at hnd
      by_cases ha : a = k
      · subst ha
        rw [show mapSet ((a, b) :: rest) a v = (a, v) :: rest from by simp [mapSet],
          List.mem_cons] at h
        rcases h with h | h
        · left; exact h
        · right
          refine ⟨List.mem_cons_of_mem _ h, fun hk => ?_⟩
          exact hnd.1 (by
            have he : e.1 ∈ rest.map Prod.fst := List.mem_map_of_mem Prod.fst h
            simpa [hk] using he)
      · rw [show mapSet ((a, b) :: rest) k v = (a, b) :: mapSet rest k v from by
          simp [mapSet, ha], List.mem_cons] at h
        rcases h with h | h
        · right
          exact ⟨by simp [h], by simp [h, ha]⟩
        · rcases ih hnd.2 h with h' | h'
          · left; exact h'
          · right; exact ⟨List.mem_cons_of_mem _ h'.1, h'.2⟩

/-! ### Claim C7 -/

/-- C7: for every input text, `parseGrammar` returns either a grammar with
    an empty error list, or no grammar with a non-empty error list — never a
    grammar alongside errors, and never `none` with zero errors. -/
theorem parseGrammar_allOrNothing (input : String) :
    (∃ G : Grammar, parseGrammar input = (some G, [])) ∨
      ((parseGrammar input).1 = none ∧ (parseGrammar input).2 ≠ []) := by
  have hgen : ∀ (g : Grammar) (errs : List ValidationError),
      (∃ G : Grammar, finishParse g errs = (some G, [])) ∨
        ((finishParse g errs).1 = none ∧ (finishParse g errs).2 ≠ []) := by
    intro g errs
    unfold finishParse
    split
    next => left; exact ⟨_, rfl⟩
    next h => right; exact ⟨rfl, h⟩
  exact hgen _ _

/-! ### Claim C4 -/

/-- C4: for the grammar `A -> a A b | ε`, the FIRST/FOLLOW engine computes
    FIRST(A) = \x7ba, ε\x7d and FOLLOW(A) = \x7b$, b\x7d. -/
theorem firstFollow_example_correct :
    (∀ x : String, x ∈ (mapGet (computeFirstFollow gC4).first "A").getD [] ↔
      (x = "a" ∨ x = "ε")) ∧
    (∀ x : String, x ∈ (mapGet (computeFirstFollow gC4).follow "A").getD [] ↔
      (x = "$" ∨ x = "b")) := by
  have h : computeFirstFollow gC4 =
      ⟨[("A", ["a", "ε"]), ("a", ["a"]), ("b", ["b"])], [("A", ["$", "b"])]⟩ := by decide
  rw [h]
  constructor <;> intro x <;> simp [mapGet]

/-! ### Claim C1 -/

/-- C1 (code bug): for `E -> E * E | E / E | id` both operator alternatives
    fall into the high-precedence bucket, so the claim says the pass leaves
    the grammar unchanged and no step is logged.  The code does leave the
    grammar unchanged, but it still reports a change and `transformGrammar`
    logs an 'Operator Precedence' step whose before and after snapshots are
    identical. -/
theorem opPrecedence_logs_step_with_empty_bucket :
    (applyOperatorPrecedence gOpHigh).2 = true ∧
    (applyOperatorPrecedence gOpHigh).1 = gOpHigh ∧
    (transformGrammar gOpHigh).steps.head? =
      some ⟨"Operator Precedence & Associativity", descOpPrec,
        "E -> E * E | E / E | id", "E -> E * E | E / E | id"⟩ := by
  refine ⟨by decide, by decide, by decide⟩

/-! ### Claim C8 -/

/-- C8 (counterexample): left-recursion elimination is not idempotent.  For
    `A -> A | b` the output contains `A' -> A' | ε`, which is again
    left-recursive, so a second run reports a change. -/
theorem leftRecElim_not_idempotent :
    (eliminateLeftRecursion (eliminateLeftRecursion gBare).1).2 = true ∧
    (eliminateLeftRecursion gBare).2 = true := by
  exact ⟨by decide, by decide⟩

/-! ### Claim C6 -/

/-- C6 (counterexample): the parser does not accept the Unicode arrow.
    `A -> a` parses to a grammar, but `A → a` is rejected with an
    invalid-format error, so the two notations are not interchangeable. -/
theorem unicodeArrow_rejected :
    parseGrammar "A -> a" = (some ⟨"A", ["A"], ["a"], [("A", [[Tm "a"]])]⟩, []) ∧
    parseGrammar "A → a" = (none, [⟨1, 1, invalidFormatMsg⟩]) := by
  exact ⟨by decide, by decide⟩

theorem hasArrowTok_append (xs ys : List Char) :
    hasArrowTok (xs ++ '-' :: '>' :: ys) = true := by
  induction xs with
  | nil => simp [hasArrowTok, isGtHead]
  | cons c rest ih => simp [hasArrowTok, ih]

theorem matchAt_arrow (cs : List Char) (k : Nat) (r : List Char × List Char)
    (h : matchAt cs k = some r) : hasArrowTok cs = true := by
  unfold matchAt at h
  dsimp only at h
  rcases e : (cs.drop k).dropWhile isWS with _ | ⟨c1, _ | ⟨c2, r2⟩⟩ <;> rw [e] at h
  · simp at h
  · simp at h
  · by_cases harr : c1 = '-' ∧ c2 = '>'
    · obtain ⟨rfl, rfl⟩ := harr
      have hsplit : cs = (cs.take k ++ (cs.drop k).takeWhile isWS) ++ '-' :: '>' :: r2 := by
        conv_lhs => rw [← List.take_append_drop k cs]
        rw [List.append_assoc]
        congr 1
        rw [← e]
        exact (List.takeWhile_append_dropWhile (p := isWS) (l := cs.drop k)).symm
      rw [hsplit]
      exact hasArrowTok_append _ _
    · dsimp only at h
      rw [if_neg harr] at h
      simp at h

/-- C6 (amended): the arrow between head and alternatives must be the ASCII
    `->`: a line in which the characters `-` and `>` never occur adjacently
    (in particular a line using only the Unicode arrow glyph) never matches
    the production-line pattern, and is therefore reported as an
    invalid-format error. -/
theorem arrow_requires_ascii (cs : List Char) (h : hasArrowTok cs = false) :
    matchArrowL cs = none := by
  unfold matchArrowL
  generalize (cs.takeWhile (fun c => !isWS c)).length = n
  induction n with
  | zero => rfl
  | succ k ih =>
    unfold tryFrom
    rcases e : matchAt cs (k + 1) with _ | r
    · simpa [e] using ih
    · exact absurd (matchAt_arrow cs (k + 1) r e) (by simp [h])

/-- C6 amended, witness: the Unicode-arrow line `A → a` has no adjacent
    `->` pair and so fails the production-line pattern. -/
theorem arrow_requires_ascii_witness :
    hasArrowTok "A → a".data = false ∧ matchArrowL "A → a".data = none :=
  ⟨by decide, arrow_requires_ascii _ (by decide)⟩

/-! ### Claim C2 -/

/-- C2 (counterexample): parse-tree generation does not use the shortest
    alternative.  In `S -> A`, `A -> a b | c`, the node for `A` is expanded
    with the first alternative `a b` (two symbols) even though the
    alternative `c` has fewer symbols. -/
theorem parseTree_not_shortest :
    generateParseTrees gFirstAlt [] 2 10 =
      [.mk "S" false [.mk "A" false [.mk "a" true [], .mk "b" true []]]] ∧
    [Tm "c"] ∈ (mapGet gFirstAlt.productions "A").getD [] ∧
    ([Tm "c"]).length < ([Tm "a", Tm "b"]).length :=
  ⟨rfl, by decide, by decide⟩

/-- C2 (amended): in the engine's parse-tree generation, every non-terminal
    node produced below the depth bound is expanded with the FIRST
    alternative of its production (`bodies[0]`), and at or beyond the bound
    (or when the non-terminal has no non-empty production) the node is kept
    with no children. -/
theorem buildTree_first_alternative (g : Grammar) (body : List Symbol) (d maxD : Nat)
    (node : ParseTreeNode) (hmem : node ∈ buildTreeFromBody g body d maxD)
    (hnt : node.isTerminal = false) :
    (d < maxD ∧ ∃ b0 bs', mapGet g.productions node.label = some (b0 :: bs') ∧
      node.children = buildTreeFromBody g b0 (d + 1) maxD) ∨
    (node.children = [] ∧ (maxD ≤ d ∨ mapGet g.productions node.label = none ∨
      mapGet g.productions node.label = some [])) := by
  unfold buildTreeFromBody at hmem ⊢
  rcases hf : maxD + 1 - d with _ | f
  · rw [hf] at hmem
    simp [buildAux] at hmem
  · rw [hf] at hmem
    have hd : d ≤ maxD := by omega
    unfold buildAux at hmem
    rw [if_neg (by omega)] at hmem
    rcases List.mem_map.mp hmem with ⟨sym, _, rfl⟩
    obtain ⟨ty, v⟩ := sym
    cases ty <;>
      dsimp only [ParseTreeNode.label, ParseTreeNode.isTerminal, ParseTreeNode.children]
        at hnt ⊢
    · exact absurd hnt (by simp)
    · rcases hget : mapGet g.productions v with _ | bs <;> dsimp only
      · exact Or.inr ⟨rfl, Or.inr (Or.inl rfl)⟩
      · rcases bs with _ | ⟨b0, bs'⟩
        · rw [if_neg (by simp)]
          exact Or.inr ⟨rfl, Or.inr (Or.inr rfl)⟩
        · by_cases hdepth : d < maxD
          · left
            refine ⟨hdepth, b0, bs', rfl, ?_⟩
            rw [if_pos ⟨by simp, hdepth⟩]
            have hfuel : f = maxD + 1 - (d + 1) := by omega
            rw [hfuel]
            rfl
          · rw [if_neg (fun hc => hdepth hc.2)]
            exact Or.inr ⟨rfl, Or.inl (by omega)⟩
    · exact absurd hnt (by simp)

/-- C2 amended, witness: in `S -> A`, `A -> a b | c` the `A` node at depth
    0 (bound 10) is expanded with the first alternative `a b`. -/
theorem buildTree_first_alternative_witness :
    (0 < 10 ∧ ∃ b0 bs',
        mapGet gFirstAlt.productions (ParseTreeNode.mk "A" false
          [.mk "a" true [], .mk "b" true []]).label = some (b0 :: bs') ∧
        (ParseTreeNode.mk "A" false [.mk "a" true [], .mk "b" true []]).children =
          buildTreeFromBody gFirstAlt b0 (0 + 1) 10) ∨
    ((ParseTreeNode.mk "A" false [.mk "a" true [], .mk "b" true []]).children = [] ∧
      (10 ≤ 0 ∨ mapGet gFirstAlt.productions (ParseTreeNode.mk "A" false
          [.mk "a" true [], .mk "b" true []]).label = none ∨
        mapGet gFirstAlt.productions (ParseTreeNode.mk "A" false
          [.mk "a" true [], .mk "b" true []]).label = some [])) :=
  buildTree_first_alternative gFirstAlt [NT "A"] 0 10 _ (List.mem_singleton.mpr rfl) rfl

/-! ### Claim C5 -/

/-- C5 (counterexample): in `A -> A x | B y A | z` the body `A x` is
    left-recursive and not right-recursive, and the different body `B y A`
    is right-recursive and does not start with the head `A` itself — yet the
    detector reports nothing, because the code also requires the
    right-recursive body not to start with ANY non-terminal. -/
theorem mixedRecursion_not_reported :
    checkBothSideRecursion gMixed = [] ∧
    mapGet gMixed.productions "A" =
      some [[NT "A", Tm "x"], [NT "B", Tm "y", NT "A"], [Tm "z"]] ∧
    ([NT "A", Tm "x"]).head? = some (NT "A") ∧
    ([NT "A", Tm "x"]).getLast? ≠ some (NT "A") ∧
    ([NT "B", Tm "y", NT "A"]).getLast? = some (NT "A") ∧
    ([NT "B", Tm "y", NT "A"]).head? ≠ some (NT "A") :=
  ⟨by decide, by decide, by decide, by decide, by decide, by decide⟩

theorem isNTOf_true_iff (h : String) (s : Symbol) : isNTOf h s = true ↔ s = NT h := by
  cases s with
  | mk ty v =>
    simp [isNTOf, NT, Symbol.mk.injEq, and_comm]

theorem opt_isNT_iff (h : String) (o : Option Symbol) :
    (o.map (isNTOf h)).getD false = true ↔ o = some (NT h) := by
  cases o <;> simp [isNTOf_true_iff]

theorem opt_notNT_iff (o : Option Symbol) :
    ¬ (o.map (fun s => decide (s.type = SymType.nonterminal))).getD false = true ↔
      ∀ s, o = some s → s.type ≠ SymType.nonterminal := by
  cases o <;> simp

/-- C5 (amended): the detector reports a Medium-severity Mixed Recursion
    reason for a head exactly when some body of length ≥ 2 is left-recursive
    (`body[0] = NonTerminal(head)`) and not right-recursive, and some body of
    length ≥ 2 is right-recursive (`body[last] = NonTerminal(head)`) and does
    not start with ANY non-terminal (`body[0].type ≠ 'nonterminal'`). -/
theorem mixedRecursion_characterization :
    (∀ (head : String) (bodies : List (List Symbol)),
      (mixedReasonsForHead head bodies ≠ [] ↔
        ((∃ body ∈ bodies, 2 ≤ body.length ∧ body.head? = some (NT head) ∧
            body.getLast? ≠ some (NT head)) ∧
         (∃ b ∈ bodies, 2 ≤ b.length ∧ b.getLast? = some (NT head) ∧
            ∀ s, b.head? = some s → s.type ≠ SymType.nonterminal))) ∧
      (∀ r ∈ mixedReasonsForHead head bodies,
        r.severity = "medium" ∧ r.type = "Mixed Recursion")) ∧
    (∀ g : Grammar, checkBothSideRecursion g ≠ [] ↔
      ∃ p ∈ g.productions, mixedReasonsForHead p.1 p.2 ≠ []) := by
  have hbool : ∀ (head : String) (bodies : List (List Symbol)) (b : List Symbol),
      (2 ≤ b.length && (b.getLast?.map (isNTOf head)).getD false &&
        !(b.head?.map (fun s => decide (s.type = SymType.nonterminal))).getD false) = true ↔
      (2 ≤ b.length ∧ b.getLast? = some (NT head) ∧
        ∀ s, b.head? = some s → s.type ≠ SymType.nonterminal) := by
    intro head bodies b
    rw [Bool.and_eq_true, Bool.and_eq_true, Bool.not_eq_true']
    rw [show ((b.head?.map (fun s => decide (s.type = SymType.nonterminal))).getD false = false)
        ↔ ¬ (b.head?.map (fun s => decide (s.type = SymType.nonterminal))).getD false = true
      from by simp]
    rw [opt_notNT_iff, opt_isNT_iff]
    simp [and_assoc]
  refine ⟨fun head bodies => ⟨?_, ?_⟩, fun g => ?_⟩
  · unfold mixedReasonsForHead
    rw [Ne, List.filterMap_eq_nil_iff]
    constructor
    · intro h
      push_neg at h
      obtain ⟨body, hmem, hne⟩ := h
      rw [ite_ne_right_iff] at hne
      obtain ⟨⟨hlen, hl, hr, hany⟩, -⟩ := hne
      refine ⟨⟨body, hmem, hlen, (opt_isNT_iff _ _).mp hl, fun hc => hr ?_⟩, ?_⟩
      · exact (opt_isNT_iff _ _).mpr hc
      · rcases List.any_eq_true.mp hany with ⟨b, hb, hcond⟩
        exact ⟨b, hb, (hbool head bodies b).mp hcond⟩
    · rintro ⟨⟨body, hmem, hlen, hl, hr⟩, b, hb, hcond⟩
      intro hall
      have hx := hall body hmem
      rw [ite_eq_right_iff] at hx
      have : ¬ (2 ≤ body.length ∧
          (body.head?.map (isNTOf head)).getD false = true ∧
          ¬ (body.getLast?.map (isNTOf head)).getD false = true ∧
          bodies.any (fun b =>
            2 ≤ b.length && (b.getLast?.map (isNTOf head)).getD false &&
              !(b.head?.map (fun s => decide (s.type = SymType.nonterminal))).getD false) = true) := by
        intro hc
        exact Option.some_ne_none _ (hx hc)
      refine this ⟨hlen, (opt_isNT_iff _ _).mpr hl, fun hc => hr ((opt_isNT_iff _ _).mp hc),
        List.any_eq_true.mpr ⟨b, hb, (hbool head bodies b).mpr hcond⟩⟩
  · intro r hr
    rcases List.mem_filterMap.mp hr with ⟨body, _, hfa⟩
    rcases ite_eq_iff.mp hfa with ⟨-, heq⟩ | ⟨-, heq⟩
    · cases heq
      exact ⟨rfl, rfl⟩
    · exact absurd heq (by simp)
  · unfold checkBothSideRecursion
    rw [Ne, List.flatMap_eq_nil_iff]
    push_neg
    constructor
    · rintro ⟨p, hp, hne⟩
      exact ⟨p, hp, hne⟩
    · rintro ⟨p, hp, hne⟩
      exact ⟨p, hp, hne⟩

/-! ### Claim C10 -/

/-- C10: when a head recurs on another production line, the line's
    alternatives are appended to the head's existing alternative list (in
    line order); no duplicate-definition error is emitted (the only errors a
    head line can add are empty-alternative errors).  Concretely,
    `A -> a` followed by `A -> b` parses to the single production
    `A -> a | b`. -/
theorem sameHead_lines_merge :
    (∀ (i : Nat) (raw : String) (st : ParseState) (headCs bodyCs : List Char),
      trimL raw.data ≠ [] →
      isCommentL (trimL raw.data) = false →
      matchArrowL (trimL raw.data) = some (headCs, bodyCs) →
      isHeadName (⟨headCs⟩ : String) = true →
      mapGet (processLine i raw st).productions ⟨headCs⟩ =
        some ((mapGet st.productions ⟨headCs⟩).getD [] ++
          (altScan (i + 1) ⟨headCs⟩ (lineAlternatives ⟨bodyCs⟩)).2) ∧
      (processLine i raw st).errors =
        st.errors ++ (altScan (i + 1) ⟨headCs⟩ (lineAlternatives ⟨bodyCs⟩)).1) ∧
    parseGrammar "A -> a\nA -> b" =
      (some ⟨"A", ["A"], ["a", "b"], [("A", [[Tm "a"], [Tm "b"]])]⟩, []) := by
  constructor
  · intro i raw st headCs bodyCs h1 h2 h3 h4
    unfold processLine
    rw [if_neg (by
      intro hc
      rcases hc with hc | hc
      · exact h1 hc
      · rw [h2] at hc
        cases hc), h3]
    dsimp only
    rw [if_neg (fun hc => hc h4)]
    exact ⟨mapGet_mapSet_self _ _ _, rfl⟩
  · decide

/-- C10, witness: processing the line `A -> b` on a state that already maps
    `A` to the single body `a` yields `A -> a | b` with no new errors. -/
theorem sameHead_lines_merge_witness :
    mapGet (processLine 1 "A -> b" ⟨[], [("A", [[Tm "a"]])], ["A"], "A"⟩).productions "A" =
      some ((mapGet ([("A", [[Tm "a"]])] :
          List (String × List (List Symbol))) "A").getD [] ++
        (altScan 2 "A" (lineAlternatives "b")).2) ∧
    (processLine 1 "A -> b" ⟨[], [("A", [[Tm "a"]])], ["A"], "A"⟩).errors =
      [] ++ (altScan 2 "A" (lineAlternatives "b")).1 :=
  (sameHead_lines_merge.1 1 "A -> b" ⟨[], [("A", [[Tm "a"]])], ["A"], "A"⟩
    "A".data "b".data (by decide) (by decide) (by decide) (by decide))

/-! ### Claim C8 (amended part) -/

theorem nodup_key_unique {α : Type} (l : List (String × α)) :
    (l.map Prod.fst).Nodup → ∀ e ∈ l, ∀ e' ∈ l, e'.1 = e.1 → e'.2 = e.2 := by
  induction l with
  | nil => intro _ e he; cases he
  | cons a rest ih =>
    intro hnd e he e' he' hk
    simp only [List.map_cons, List.nodup_cons] at hnd
    rcases List.mem_cons.mp he with he1 | he1 <;> rcases List.mem_cons.mp he' with he2 | he2
    · rw [he1, he2]
    · have hh := List.mem_map_of_mem Prod.fst he2
      rw [hk, he1] at hh
      exact absurd hh hnd.1
    · have hh := List.mem_map_of_mem Prod.fst he1
      rw [← hk, he2] at hh
      exact absurd hh hnd.1
    · exact ih hnd.2 e he1 e' he2 hk

theorem append_primeStr_ne (h : String) : h ++ primeStr ≠ h := by
  intro he
  have hlen := congrArg String.length he
  rw [String.length_append] at hlen
  have : primeStr.length = 1 := rfl
  omega

/-- The head's rewritten bodies are never left-recursive on the head. -/
theorem lr_newBodies_safe (h : String) (bodies : List (List Symbol)) :
    (lrSplit h ((lrSplit h bodies).2.map (fun b => b ++ [NT (h ++ primeStr)]))).1 = [] := by
  unfold lrSplit
  rw [List.map_eq_nil_iff, List.filter_eq_nil_iff]
  intro b hb
  rcases List.mem_map.mp hb with ⟨β, hβ, rfl⟩
  have hβn : isLeftRecBody h β = false := by
    have := List.of_mem_filter hβ
    simpa using this
  rcases β with _ | ⟨s, t⟩
  · simp [isLeftRecBody, isNTOf, NT, append_primeStr_ne h]
  · simp only [List.cons_append, isLeftRecBody, List.head?_cons, Option.map_some,
      Option.getD_some, Bool.not_eq_true] at hβn ⊢
    exact hβn

/-- The generated prime non-terminal's bodies are never left-recursive on
    it, provided no tail is empty or begins with the prime name. -/
theorem lr_primeBodies_safe (pn : String) (tails : List (List Symbol))
    (hgood : ∀ tl ∈ tails, tl ≠ [] ∧ tl.head? ≠ some (NT pn)) :
    (lrSplit pn (tails.map (fun tl => tl ++ [NT pn]) ++ [[Eps]])).1 = [] := by
  unfold lrSplit
  rw [List.map_eq_nil_iff, List.filter_eq_nil_iff]
  intro b hb
  rcases List.mem_append.mp hb with hb | hb
  · rcases List.mem_map.mp hb with ⟨tl, htl, rfl⟩
    obtain ⟨hne, hhead⟩ := hgood tl htl
    rcases tl with _ | ⟨s, t⟩
    · exact absurd rfl hne
    · simp only [List.head?_cons, Ne, Option.some.injEq] at hhead
      simp only [List.cons_append, isLeftRecBody, List.head?_cons, Option.map_some,
        Option.getD_some, Bool.not_eq_true]
      rcases he : isNTOf pn s with _ | _
      · simp [he]
      · exact absurd ((isNTOf_true_iff pn s).mp he) hhead
  · simp only [List.mem_singleton] at hb
    subst hb
    simp [isLeftRecBody, isNTOf, Eps]

/-- Entries that are not both-sided stay untouched by `lrStep`; both-sided
    entries are replaced by safe ones; safety is preserved. -/
theorem lr_fold_safe (g : Grammar)
    (hgood : ∀ p ∈ g.productions, (lrSplit p.1 p.2).1 ≠ [] → (lrSplit p.1 p.2).2 ≠ [] →
      ∀ tl ∈ (lrSplit p.1 p.2).1, tl ≠ [] ∧ tl.head? ≠ some (NT (p.1 ++ primeStr))) :
    ∀ (l : List (String × List (List Symbol)))
      (acc : List (String × List (List Symbol)) × List String × Bool),
      (∀ p ∈ l, p ∈ g.productions) →
      ((acc.1.map Prod.fst).Nodup) →
      (∀ e ∈ acc.1,
        ((lrSplit e.1 e.2).1 = [] ∨ (lrSplit e.1 e.2).2 = []) ∨
          (e.1 ∈ l.map Prod.fst ∧ ∀ e' ∈ l, e'.1 = e.1 → e'.2 = e.2)) →
      ∀ e ∈ (l.foldl lrStep acc).1,
        (lrSplit e.1 e.2).1 = [] ∨ (lrSplit e.1 e.2).2 = [] := by
  intro l
  induction l with
  | nil =>
    intro acc _ _ hinv e he
    rcases hinv e he with h | h
    · exact h
    · simp at h
  | cons p rest ih =>
    intro acc hsub hnd hinv
    rw [List.foldl_cons]
    by_cases hcond : (lrSplit p.1 p.2).1 ≠ [] ∧ (lrSplit p.1 p.2).2 ≠ []
    · have hstep : lrStep acc p =
          (mapSet (mapSet acc.1 p.1 ((lrSplit p.1 p.2).2.map
              (fun b => b ++ [NT (p.1 ++ primeStr)])))
            (p.1 ++ primeStr)
            ((lrSplit p.1 p.2).1.map (fun tl => tl ++ [NT (p.1 ++ primeStr)]) ++ [[Eps]]),
           insertUniq acc.2.1 (p.1 ++ primeStr), true) := by
        unfold lrStep
        rw [if_pos hcond]
      refine ih _ (fun q hq => hsub q (List.mem_cons_of_mem _ hq)) ?_ ?_
      · rw [hstep]
        exact mapSet_keys_nodup _ _ _ (mapSet_keys_nodup _ _ _ hnd)
      · rw [hstep]
        intro e he
        rcases mem_mapSet_nodup _ _ _ _ (mapSet_keys_nodup _ _ _ hnd) he with rfl | ⟨he1, hne1⟩
        · left
          left
          exact lr_primeBodies_safe _ _ (hgood p (hsub p (List.mem_cons_self p rest))
            hcond.1 hcond.2)
        · rcases mem_mapSet_nodup _ _ _ _ hnd he1 with rfl | ⟨he2, hne2⟩
          · left
            left
            exact lr_newBodies_safe p.1 p.2
          · rcases hinv e he2 with hsafe | ⟨hkey, hagree⟩
            · left; exact hsafe
            · right
              rw [List.map_cons] at hkey
              constructor
              · rcases List.mem_cons.mp hkey with hk | hk
                · exact absurd hk hne2
                · exact hk
              · intro e' he' hk
                exact hagree e' (List.mem_cons_of_mem _ he') hk
    · have hstep : lrStep acc p = acc := by
        unfold lrStep
        rw [if_neg hcond]
      rw [hstep]
      refine ih _ (fun q hq => hsub q (List.mem_cons_of_mem _ hq)) hnd ?_
      intro e he
      rcases hinv e he with hsafe | ⟨hkey, hagree⟩
      · left; exact hsafe
      · rw [List.map_cons] at hkey
        rcases List.mem_cons.mp hkey with hk | hk
        · left
          have hbodies : p.2 = e.2 := hagree p (List.mem_cons_self p rest) hk.symm
          have hnb : ¬ ((lrSplit e.1 e.2).1 ≠ [] ∧ (lrSplit e.1 e.2).2 ≠ []) := by
            rw [hk, ← hbodies]
            exact hcond
          by_cases h1 : (lrSplit e.1 e.2).1 = []
          · left; exact h1
          · right
            by_contra h2
            exact hnb ⟨h1, h2⟩
        · right
          exact ⟨hk, fun e' he' hk' => hagree e' (List.mem_cons_of_mem _ he') hk'⟩

/-- A fold over entries that are all one-sided never sets the changed flag. -/
theorem lr_fold_unchanged (l : List (String × List (List Symbol)))
    (hsafe : ∀ p ∈ l, (lrSplit p.1 p.2).1 = [] ∨ (lrSplit p.1 p.2).2 = []) :
    ∀ acc, acc.2.2 = false → (l.foldl lrStep acc).2.2 = false := by
  induction l with
  | nil => intro acc h; simpa using h
  | cons p rest ih =>
    intro acc hacc
    rw [List.foldl_cons]
    have hstep : lrStep acc p = acc := by
      unfold lrStep
      rw [if_neg (by
        rcases hsafe p (List.mem_cons_self p rest) with h | h
        · intro hc; exact hc.1 h
        · intro hc; exact hc.2 h)]
    rw [hstep]
    exact ih (fun q hq => hsafe q (List.mem_cons_of_mem _ hq)) acc hacc

/-- C8 (amended): left-recursion elimination is idempotent provided no
    left-recursive alternative is the bare head (empty tail) and no
    left-recursive tail begins with the non-terminal named `head + "'"`;
    under these conditions no body of the rewritten grammar is
    left-recursive on its own head, so re-running the pass reports no
    change.  (Without the proviso the pass is not idempotent, see the
    counterexample `A -> A | b`.) -/
theorem leftRecElim_conditional_idempotent (g : Grammar)
    (hnd : (g.productions.map Prod.fst).Nodup)
    (hgood : ∀ p ∈ g.productions, (lrSplit p.1 p.2).1 ≠ [] → (lrSplit p.1 p.2).2 ≠ [] →
      ∀ tl ∈ (lrSplit p.1 p.2).1, tl ≠ [] ∧ tl.head? ≠ some (NT (p.1 ++ primeStr))) :
    (eliminateLeftRecursion (eliminateLeftRecursion g).1).2 = false := by
  have hsafe : ∀ e ∈ (eliminateLeftRecursion g).1.productions,
      (lrSplit e.1 e.2).1 = [] ∨ (lrSplit e.1 e.2).2 = [] := by
    intro e he
    refine lr_fold_safe g hgood g.productions (g.productions, g.nonTerminals, false)
      (fun p hp => hp) hnd ?_ e he
    intro e' he'
    right
    exact ⟨List.mem_map_of_mem Prod.fst he',
      fun e'' he'' hk => nodup_key_unique _ hnd e' he' e'' he'' hk⟩
  exact lr_fold_unchanged _ hsafe _ rfl

/-- C8 amended, witness: for the textbook grammar `E -> E + T | T`,
    `T -> i` the provisos hold and a second run of the pass reports no
    change. -/
theorem leftRecElim_conditional_idempotent_witness :
    (eliminateLeftRecursion (eliminateLeftRecursion gLR).1).2 = false :=
  leftRecElim_conditional_idempotent gLR (by decide) (by decide)

/-! ### Claim C9 -/

theorem mem_addUniq (l : List String) (y x : String) :
    x ∈ (addUniq l y).1 ↔ x ∈ l ∨ x = y := by
  by_cases h : y ∈ l
  · rw [show (addUniq l y).1 = l from by simp [addUniq, h]]
    constructor
    · exact fun hx => Or.inl hx
    · rintro (hx | rfl)
      · exact hx
      · exact h
  · rw [show (addUniq l y).1 = l ++ [y] from by simp [addUniq, h]]
    simp

theorem mem_fold_addUniq (xs : List String) :
    ∀ (s : List String) (x : String),
      x ∈ xs.foldl (fun a f => (addUniq a f).1) s → x ∈ s ∨ x ∈ xs := by
  induction xs with
  | nil => intro s x h; left; exact h
  | cons y ys ih =>
    intro s x h
    rw [List.foldl_cons] at h
    rcases ih _ x h with h' | h'
    · rcases (mem_addUniq s y x).mp h' with h'' | h''
      · left; exact h''
      · right; rw [h'']; exact List.mem_cons_self _ _
    · right; exact List.mem_cons_of_mem _ h'

theorem subset_fold_addUniq (xs : List String) :
    ∀ (s : List String) (x : String), x ∈ s → x ∈ xs.foldl (fun a f => (addUniq a f).1) s := by
  induction xs with
  | nil => intro s x h; exact h
  | cons y ys ih =>
    intro s x h
    rw [List.foldl_cons]
    exact ih _ x ((mem_addUniq s y x).mpr (Or.inl h))

theorem mapGet_mem {α : Type} (m : List (String × α)) (k : String) (v : α) :
    mapGet m k = some v → (k, v) ∈ m := by
  induction m with
  | nil => intro h; cases h
  | cons p rest ih =>
    intro h
    cases p with
    | mk a b =>
      unfold mapGet at h
      by_cases ha : a = k
      · rw [if_pos ha] at h
        injection h with hb
        subst ha
        subst hb
        exact List.mem_cons_self _ _
      · rw [if_neg ha] at h
        exact List.mem_cons_of_mem _ (ih h)

theorem mem_mapSet_weak {α : Type} (m : List (String × α)) (k : String) (v : α)
    (e : String × α) : e ∈ mapSet m k v → e = (k, v) ∨ e ∈ m := by
  induction m with
  | nil =>
    intro h
    simp [mapSet] at h
    left; exact h
  | cons p rest ih =>
    intro h
    cases p with
    | mk a b =>
      by_cases ha : a = k
      · subst ha
        rw [show mapSet ((a, b) :: rest) a v = (a, v) :: rest from by simp [mapSet],
          List.mem_cons] at h
        rcases h with h | h
        · left; exact h
        · right; exact List.mem_cons_of_mem _ h
      · rw [show mapSet ((a, b) :: rest) k v = (a, b) :: mapSet rest k v from by
          simp [mapSet, ha], List.mem_cons] at h
        rcases h with h | h
        · right; rw [h]; exact List.mem_cons_self _ _
        · rcases ih h with h' | h'
          · left; exact h'
          · right; exact List.mem_cons_of_mem _ h'

theorem mapAddAll_entries (m : List (String × List String)) (k : String) (xs : List String)
    (e : String × List String) (h : e ∈ (mapAddAll m k xs).1) :
    e ∈ m ∨ ∃ s, mapGet m k = some s ∧
      e = (k, xs.foldl (fun a x => (addUniq a x).1) s) := by
  unfold mapAddAll at h
  rcases hg : mapGet m k with _ | s <;> rw [hg] at h <;> dsimp only at h
  · left; exact h
  · rcases mem_mapSet_weak _ _ _ _ h with h' | h'
    · right; exact ⟨s, rfl, h'⟩
    · left; exact h'

theorem mapAddAll_epsFree (m : List (String × List String)) (k : String) (xs : List String)
    (hm : ∀ e ∈ m, "ε" ∉ e.2) (hxs : "ε" ∉ xs) :
    ∀ e ∈ (mapAddAll m k xs).1, "ε" ∉ e.2 := by
  intro e he
  rcases mapAddAll_entries m k xs e he with h | ⟨s, hg, rfl⟩
  · exact hm e h
  · intro hmem
    rcases mem_fold_addUniq xs s _ hmem with h' | h'
    · exact hm (k, s) (mapGet_mem m k s hg) h'
    · exact hxs h'

theorem mapAddAll_keeps_start (m : List (String × List String)) (k : String) (xs : List String)
    (start : String) (hq : ∃ s, mapGet m start = some s ∧ "$" ∈ s) :
    ∃ s, mapGet (mapAddAll m k xs).1 start = some s ∧ "$" ∈ s := by
  obtain ⟨s, hg, hd⟩ := hq
  unfold mapAddAll
  rcases hk : mapGet m k with _ | t <;> dsimp only
  · exact ⟨s, hg, hd⟩
  · by_cases hks : k = start
    · subst hks
      rw [hg] at hk
      injection hk with ht
      subst ht
      exact ⟨_, mapGet_mapSet_self _ _ _, subset_fold_addUniq xs s "$" hd⟩
    · rw [mapGet_mapSet_other m k start _ (fun hc => hks hc.symm)]
      exact ⟨s, hg, hd⟩

theorem followBody_epsFree (g : Grammar) (first : List (String × List String)) (head : String) :
    ∀ (body : List Symbol) (st : List (String × List String) × Bool),
      (∀ e ∈ st.1, "ε" ∉ e.2) → ∀ e ∈ (followBody g first head body st).1, "ε" ∉ e.2 := by
  intro body
  induction body with
  | nil => intro st h e he; exact h e he
  | cons s rest ih =>
    intro st h
    unfold followBody
    dsimp only
    apply ih
    split
    · have h1 : ∀ e ∈ (mapAddAll st.1 s.value
          ((computeFirstOfString rest first).filter (fun f => f ≠ "ε"))).1, "ε" ∉ e.2 := by
        refine mapAddAll_epsFree _ _ _ h ?_
        intro hc
        have h2 := List.of_mem_filter hc
        simp at h2
      split
      · refine mapAddAll_epsFree _ _ _ h1 ?_
        rcases hg : mapGet (mapAddAll st.1 s.value
            ((computeFirstOfString rest first).filter (fun f => f ≠ "ε"))).1 head with _ | t
        · simp
        · simpa using h1 (head, t) (mapGet_mem _ _ _ hg)
      · exact h1
    · exact h

theorem followBody_keeps_start (g : Grammar) (first : List (String × List String))
    (head start : String) :
    ∀ (body : List Symbol) (st : List (String × List String) × Bool),
      (∃ s, mapGet st.1 start = some s ∧ "$" ∈ s) →
      ∃ s, mapGet (followBody g first head body st).1 start = some s ∧ "$" ∈ s := by
  intro body
  induction body with
  | nil => intro st h; exact h
  | cons s rest ih =>
    intro st h
    unfold followBody
    dsimp only
    apply ih
    split
    · split
      · exact mapAddAll_keeps_start _ _ _ _ (mapAddAll_keeps_start _ _ _ _ h)
      · exact mapAddAll_keeps_start _ _ _ _ h
    · exact h

theorem foldl_preserve {α β : Type} (I : β → Prop) (f : β → α → β) :
    ∀ (l : List α) (b : β), (∀ (b' : β) (a : α), a ∈ l → I b' → I (f b' a)) →
      I b → I (l.foldl f b) := by
  intro l
  induction l with
  | nil => intro b _ hb; exact hb
  | cons a rest ih =>
    intro b hstep hb
    rw [List.foldl_cons]
    exact ih _ (fun b' a' ha' => hstep b' a' (List.mem_cons_of_mem _ ha'))
      (hstep b a (List.mem_cons_self _ _) hb)

theorem followPass_preserve (g : Grammar) (first : List (String × List String))
    (I : List (String × List String) → Prop)
    (hbody : ∀ (head : String) (body : List Symbol)
      (st : List (String × List String) × Bool),
      I st.1 → I (followBody g first head body st).1)
    (st : List (String × List String) × Bool) (h : I st.1) :
    I (followPass g first st).1 := by
  unfold followPass
  refine foldl_preserve (fun st => I st.1) _ g.productions st ?_ h
  intro st' p _ hst'
  exact foldl_preserve (fun st => I st.1) _ p.2 st'
    (fun st'' body _ hst'' => hbody p.1 body st'' hst'') hst'

theorem followLoop_preserve (g : Grammar) (first : List (String × List String))
    (I : List (String × List String) → Prop)
    (hpass : ∀ (st : List (String × List String) × Bool), I st.1 → I (followPass g first st).1) :
    ∀ (fuel : Nat) (m : List (String × List String)), I m → I (followLoop g first fuel m) := by
  intro fuel
  induction fuel with
  | zero => intro m h; exact h
  | succ n ih =>
    intro m h
    unfold followLoop
    dsimp only
    split
    · exact ih _ (hpass (m, false) h)
    · exact hpass (m, false) h

theorem fold_mapSet_key (nts : List String) :
    ∀ (m0 : List (String × List String)) (x : String),
      ((mapGet m0 x).isSome ∨ x ∈ nts) →
      (mapGet (nts.foldl (fun m nt => mapSet m nt []) m0) x).isSome := by
  induction nts with
  | nil =>
    intro m0 x h
    rcases h with h | h
    · exact h
    · cases h
  | cons y ys ih =>
    intro m0 x h
    rw [List.foldl_cons]
    apply ih
    by_cases hx : x = y
    · left
      rw [hx, mapGet_mapSet_self]
      rfl
    · rcases h with h | h
      · left
        rw [mapGet_mapSet_other m0 y x _ hx]
        exact h
      · rcases List.mem_cons.mp h with h' | h'
        · left
          rw [h', mapGet_mapSet_self]
          rfl
        · right; exact h'

theorem fold_mapSet_entries_nil (nts : List String) :
    ∀ (m0 : List (String × List String)), (∀ e ∈ m0, e.2 = []) →
      ∀ e ∈ nts.foldl (fun m nt => mapSet m nt []) m0, e.2 = [] := by
  intro m0 h
  refine foldl_preserve (fun m => ∀ e ∈ m, e.2 = []) _ nts m0 ?_ h
  intro m nt _ hm e he
  rcases mem_mapSet_weak _ _ _ _ he with h' | h'
  · rw [h']
  · exact hm e h'

/-- C9: the finished FOLLOW sets never contain the epsilon marker, and when
    the start symbol is a declared non-terminal (data-model invariant),
    FOLLOW(startSymbol) contains the end-of-input marker `$`. -/
theorem follow_no_epsilon_and_endmarker (g : Grammar) :
    (∀ e ∈ (computeFirstFollow g).follow, "ε" ∉ e.2) ∧
    (g.startSymbol ∈ g.nonTerminals →
      ∃ s, mapGet (computeFirstFollow g).follow g.startSymbol = some s ∧ "$" ∈ s) := by
  have hfollow : (computeFirstFollow g).follow =
      followLoop g (firstLoop g (loopFuel g)
          (g.terminals.foldl (fun m t => mapSet m t [t])
            (g.nonTerminals.foldl (fun m nt => mapSet m nt []) [])))
        (loopFuel g)
        ((mapAddAll (g.nonTerminals.foldl (fun m nt => mapSet m nt []) [])
          g.startSymbol ["$"]).1) := rfl
  rw [hfollow]
  have hinit : ∀ e ∈ g.nonTerminals.foldl (fun m nt => mapSet m nt []) [], e.2 = [] :=
    fold_mapSet_entries_nil g.nonTerminals [] (by intro e he; cases he)
  constructor
  · refine followLoop_preserve g _ (fun m => ∀ e ∈ m, "ε" ∉ e.2) ?_ _ _ ?_
    · intro st h
      exact followPass_preserve g _ (fun m => ∀ e ∈ m, "ε" ∉ e.2)
        (fun head body st h => followBody_epsFree g _ head body st h) st h
    · refine mapAddAll_epsFree _ _ _ ?_ (by decide)
      intro e he
      rw [hinit e he]
      simp
  · intro hstart
    refine followLoop_preserve g _
      (fun m => ∃ s, mapGet m g.startSymbol = some s ∧ "$" ∈ s) ?_ _ _ ?_
    · intro st h
      exact followPass_preserve g _
        (fun m => ∃ s, mapGet m g.startSymbol = some s ∧ "$" ∈ s)
        (fun head body st h => followBody_keeps_start g _ head g.startSymbol body st h) st h
    · have hsome : (mapGet (g.nonTerminals.foldl (fun m nt => mapSet m nt []) [])
          g.startSymbol).isSome :=
        fold_mapSet_key g.nonTerminals [] g.startSymbol (Or.inr hstart)
      rcases hget : mapGet (g.nonTerminals.foldl (fun m nt => mapSet m nt []) [])
          g.startSymbol with _ | s0
      · rw [hget] at hsome
        cases hsome
      · unfold mapAddAll
        rw [hget]
        dsimp only
        exact ⟨_, mapGet_mapSet_self _ _ _,
          (mem_addUniq s0 "$" "$").mpr (Or.inr rfl)⟩

/-- C9, witness: for the grammar `A -> a A b | ε` the start symbol is a
    declared non-terminal, FOLLOW contains no ε, and FOLLOW(A) contains $. -/
theorem follow_no_epsilon_and_endmarker_witness :
    (∀ e ∈ (computeFirstFollow gC4).follow, "ε" ∉ e.2) ∧
    ("A" ∈ gC4.nonTerminals →
      ∃ s, mapGet (computeFirstFollow gC4).follow "A" = some s ∧ "$" ∈ s) :=
  follow_no_epsilon_and_endmarker gC4

/-- C5 amended, witness: for `E -> E + T | id E` the first body is
    left-recursive and not right-recursive, the second is right-recursive
    and starts with a terminal, so a reason is reported. -/
theorem mixedRecursion_characterization_witness :
    mixedReasonsForHead "E" [[NT "E", Tm "+", NT "T"], [Tm "id", NT "E"]] ≠ [] :=
  ((mixedRecursion_characterization.1 "E"
      [[NT "E", Tm "+", NT "T"], [Tm "id", NT "E"]]).1).mpr
    ⟨⟨[NT "E", Tm "+", NT "T"], by decide, by decide, by decide, by decide⟩,
     ⟨[Tm "id", NT "E"], by decide, by decide, by decide, by
        intro s hs
        cases hs
        decide⟩⟩

/-! ### Claim C3: list and character utilities -/

theorem splitCh_cons (c d : Char) (rest : List Char) :
    splitCh c (d :: rest) =
      match splitCh c rest with
      | [] => if d = c then [[], []] else [[d]]
      | t :: ts => if d = c then [] :: t :: ts else (d :: t) :: ts := rfl

theorem splitCh_ne_nil (c : Char) : ∀ (cs : List Char), splitCh c cs ≠ [] := by
  intro cs
  induction cs with
  | nil => simp [splitCh]
  | cons d rest ih =>
    rw [splitCh_cons]
    rcases h : splitCh c rest with _ | ⟨t, ts⟩
    · exact absurd h ih
    · dsimp only
      split <;> simp

theorem splitCh_no_sep (c : Char) : ∀ (cs : List Char), c ∉ cs → splitCh c cs = [cs] := by
  intro cs
  induction cs with
  | nil => intro _; rfl
  | cons d rest ih =>
    intro h
    have hd : ¬ d = c := fun he => h (he ▸ List.mem_cons_self d rest)
    rw [splitCh_cons, ih (fun hm => h (List.mem_cons_of_mem _ hm))]
    dsimp only
    rw [if_neg hd]

theorem splitCh_append (c : Char) : ∀ (xs ys : List Char), c ∉ xs →
    splitCh c (xs ++ c :: ys) = xs :: splitCh c ys := by
  intro xs
  induction xs with
  | nil =>
    intro ys _
    show splitCh c (c :: ys) = [] :: splitCh c ys
    rw [splitCh_cons]
    rcases h : splitCh c ys with _ | ⟨t, ts⟩
    · exact absurd h (splitCh_ne_nil c ys)
    · dsimp only
      rw [if_pos rfl, ← h]
  | cons d rest ih =>
    intro ys h
    have hd : ¬ d = c := fun he => h (he ▸ List.mem_cons_self d rest)
    show splitCh c (d :: (rest ++ c :: ys)) = (d :: rest) :: splitCh c ys
    rw [splitCh_cons, ih ys (fun hm => h (List.mem_cons_of_mem _ hm))]
    dsimp only
    rw [if_neg hd]

theorem mem_splitCh_no_sep (c : Char) : ∀ (cs : List Char) (p : List Char),
    p ∈ splitCh c cs → c ∉ p := by
  intro cs
  induction cs with
  | nil =>
    intro p hp hc
    simp [splitCh] at hp
    subst hp
    cases hc
  | cons d rest ih =>
    intro p hp hc
    rw [splitCh_cons] at hp
    rcases h : splitCh c rest with _ | ⟨t, ts⟩
    · exact absurd h (splitCh_ne_nil c rest)
    · rw [h] at hp
      dsimp only at hp
      by_cases hd : d = c
      · rw [if_pos hd] at hp
        rcases List.mem_cons.mp hp with hp' | hp'
        · subst hp'
          cases hc
        · exact ih p (h ▸ hp') hc
      · rw [if_neg hd] at hp
        rcases List.mem_cons.mp hp with hp' | hp'
        · subst hp'
          rcases List.mem_cons.mp hc with hc' | hc'
          · exact hd hc'.symm
          · exact ih t (h ▸ List.mem_cons_self t ts) hc'
        · exact ih p (h ▸ List.mem_cons_of_mem _ hp') hc

theorem interL_cons_cons (sep : List Char) (p q : List Char) (rest : List (List Char)) :
    interL sep (p :: q :: rest) = p ++ sep ++ interL sep (q :: rest) := rfl

theorem interL_chars (sep : List Char) : ∀ (parts : List (List Char)) (c : Char),
    c ∈ interL sep parts → c ∈ sep ∨ ∃ p ∈ parts, c ∈ p := by
  intro parts
  induction parts with
  | nil =>
    intro c h
    simp [interL] at h
  | cons p rest ih =>
    intro c h
    rcases rest with _ | ⟨q, rest'⟩
    · right
      exact ⟨p, List.mem_cons_self _ _, h⟩
    · rw [interL_cons_cons] at h
      rcases List.mem_append.mp h with h' | h'
      · rcases List.mem_append.mp h' with h'' | h''
        · right; exact ⟨p, List.mem_cons_self _ _, h''⟩
        · left; exact h''
      · rcases ih c h' with h'' | ⟨r, hr, hcr⟩
        · left; exact h''
        · right; exact ⟨r, List.mem_cons_of_mem _ hr, hcr⟩

theorem interL_ne_nil (sep : List Char) (q : List Char) (rest : List (List Char))
    (hq : q ≠ []) : interL sep (q :: rest) ≠ [] := by
  rcases rest with _ | ⟨r, rest'⟩
  · exact hq
  · rw [interL_cons_cons]
    intro h
    rcases List.append_eq_nil.mp h with ⟨h1, -⟩
    rcases List.append_eq_nil.mp h1 with ⟨h2, -⟩
    exact hq h2

theorem interL_head? (sep : List Char) (p : List Char) (rest : List (List Char))
    (hp : p ≠ []) : (interL sep (p :: rest)).head? = p.head? := by
  rcases rest with _ | ⟨q, rest'⟩
  · rfl
  · rw [interL_cons_cons]
    rcases p with _ | ⟨x, p'⟩
    · exact absurd rfl hp
    · rfl

theorem interL_getLast_prop (sep : List Char) (P : Char → Prop) :
    ∀ (parts : List (List Char)),
      (∀ p ∈ parts, p ≠ [] ∧ ∀ x, p.getLast? = some x → P x) →
      ∀ x, (interL sep parts).getLast? = some x → P x := by
  intro parts
  induction parts with
  | nil =>
    intro _ x h
    simp [interL] at h
  | cons p rest ih =>
    intro hps x h
    rcases rest with _ | ⟨q, rest'⟩
    · exact (hps p (List.mem_cons_self _ _)).2 x h
    · rw [interL_cons_cons, List.getLast?_append] at h
      have hne : interL sep (q :: rest') ≠ [] :=
        interL_ne_nil sep q rest' (hps q (List.mem_cons_of_mem _ (List.mem_cons_self _ _))).1
      rcases hg : (interL sep (q :: rest')).getLast? with _ | y
      · exact absurd (List.getLast?_eq_none_iff.mp hg) hne
      · rw [hg, Option.or_some] at h
        injection h with hxy
        rw [← hxy]
        exact ih (fun r hr => hps r (List.mem_cons_of_mem _ hr)) y hg

theorem dropWhile_isWS_all (a b : List Char) (ha : ∀ x ∈ a, isWS x = true) :
    (a ++ b).dropWhile isWS = b.dropWhile isWS := by
  induction a with
  | nil => rfl
  | cons c rest ih =>
    rw [List.cons_append, List.dropWhile_cons, if_pos (ha c (List.mem_cons_self _ _))]
    exact ih (fun x hx => ha x (List.mem_cons_of_mem _ hx))

theorem dropWhile_isWS_stable (b : List Char)
    (hb : ∀ x, b.head? = some x → isWS x = false) : b.dropWhile isWS = b := by
  rcases b with _ | ⟨c, r⟩
  · rfl
  · rw [List.dropWhile_cons, if_neg (by rw [hb c rfl]; simp)]

theorem trimL_outer (a b c : List Char) (ha : ∀ x ∈ a, isWS x = true)
    (hc : ∀ x ∈ c, isWS x = true)
    (hb1 : ∀ x, b.head? = some x → isWS x = false)
    (hb2 : ∀ x, b.getLast? = some x → isWS x = false) :
    trimL (a ++ b ++ c) = b := by
  unfold trimL
  rw [List.append_assoc, dropWhile_isWS_all a (b ++ c) ha]
  rcases b with _ | ⟨x, b'⟩
  · rw [List.nil_append, show c.dropWhile isWS = [] from by
      have h := dropWhile_isWS_all c [] hc
      rwa [List.append_nil] at h]
    rfl
  · rw [show ((x :: b') ++ c).dropWhile isWS = (x :: b') ++ c from by
      rw [List.cons_append, List.dropWhile_cons, if_neg (by rw [hb1 x rfl]; simp)]]
    rw [List.reverse_append, dropWhile_isWS_all c.reverse (x :: b').reverse
      (fun y hy => hc y (List.mem_reverse.mp hy))]
    rw [dropWhile_isWS_stable (x :: b').reverse
      (fun y hy => hb2 y (by rwa [List.head?_reverse] at hy))]
    rw [List.reverse_reverse]

theorem trimL_subset (cs : List Char) : ∀ c ∈ trimL cs, c ∈ cs := by
  intro c hc
  unfold trimL at hc
  rw [List.mem_reverse] at hc
  have h1 := (List.dropWhile_sublist isWS
    (l := (cs.dropWhile isWS).reverse)).subset hc
  rw [List.mem_reverse] at h1
  exact (List.dropWhile_sublist isWS (l := cs)).subset h1

theorem dropWhile_head_not (l : List Char) :
    ∀ x, (l.dropWhile isWS).head? = some x → isWS x = false := by
  induction l with
  | nil => intro x h; cases h
  | cons c r ih =>
    intro x h
    rw [List.dropWhile_cons] at h
    split at h
    · exact ih x h
    · injection h with hx
      subst hx
      simp at *
      assumption

theorem suffix_getLast? {α : Type} (v w : List α) (h : v <:+ w) (hv : v ≠ []) :
    v.getLast? = w.getLast? := by
  obtain ⟨t, rfl⟩ := h
  rw [List.getLast?_append]
  rcases hg : v.getLast? with _ | y
  · rcases v with _ | ⟨z, zs⟩
    · exact absurd rfl hv
    · rw [List.getLast?_cons] at hg
      simp at hg
  · rfl

theorem trimL_head_not_ws (cs : List Char) :
    ∀ x, (trimL cs).head? = some x → isWS x = false := by
  intro x h
  unfold trimL at h
  rw [List.head?_reverse] at h
  have hv : ((cs.dropWhile isWS).reverse.dropWhile isWS) ≠ [] := by
    intro hnil
    rw [hnil] at h
    cases h
  rw [suffix_getLast? _ _ (List.dropWhile_suffix isWS) hv, List.getLast?_reverse] at h
  exact dropWhile_head_not cs x h

theorem trimL_getLast_not_ws (cs : List Char) :
    ∀ x, (trimL cs).getLast? = some x → isWS x = false := by
  intro x h
  unfold trimL at h
  rw [List.getLast?_reverse] at h
  exact dropWhile_head_not _ x h

theorem trimL_idem (cs : List Char) : trimL (trimL cs) = trimL cs := by
  have h := trimL_outer [] (trimL cs) [] (by intro x hx; cases hx) (by intro x hx; cases hx)
    (trimL_head_not_ws cs) (trimL_getLast_not_ws cs)
  rwa [List.nil_append, List.append_nil] at h

theorem wordsGo_nil (acc : List Char) :
    wordsGo [] acc = if acc = [] then [] else [acc.reverse] := rfl

theorem wordsGo_cons (c : Char) (rest acc : List Char) :
    wordsGo (c :: rest) acc =
      if isWS c = true then
        (if acc = [] then wordsGo rest [] else acc.reverse :: wordsGo rest [])
      else wordsGo rest (c :: acc) := rfl

theorem wordsGo_nonWS_run : ∀ (v acc : List Char), (∀ c ∈ v, isWS c = false) →
    (acc ≠ [] ∨ v ≠ []) → wordsGo v acc = [acc.reverse ++ v] := by
  intro v
  induction v with
  | nil =>
    intro acc _ h
    rcases h with h | h
    · rw [wordsGo_nil, if_neg h, List.append_nil]
    · exact absurd rfl h
  | cons c rest ih =>
    intro acc hws _
    rw [wordsGo_cons, if_neg (by rw [hws c (List.mem_cons_self _ _)]; simp)]
    rw [ih (c :: acc) (fun x hx => hws x (List.mem_cons_of_mem _ hx)) (Or.inl (by simp))]
    simp

theorem wordsGo_run_space : ∀ (v acc tail : List Char), (∀ c ∈ v, isWS c = false) →
    (acc ≠ [] ∨ v ≠ []) →
    wordsGo (v ++ ' ' :: tail) acc = (acc.reverse ++ v) :: wordsGo tail [] := by
  intro v
  induction v with
  | nil =>
    intro acc tail _ h
    rcases h with h | h
    · show wordsGo (' ' :: tail) acc = _
      rw [wordsGo_cons, if_pos (by decide), if_neg h, List.append_nil]
    · exact absurd rfl h
  | cons c rest ih =>
    intro acc tail hws _
    show wordsGo (c :: (rest ++ ' ' :: tail)) acc = _
    rw [wordsGo_cons, if_neg (by rw [hws c (List.mem_cons_self _ _)]; simp)]
    rw [ih (c :: acc) tail (fun x hx => hws x (List.mem_cons_of_mem _ hx)) (Or.inl (by simp))]
    simp

theorem wordsL_join : ∀ (vs : List (List Char)),
    (∀ v ∈ vs, v ≠ [] ∧ ∀ c ∈ v, isWS c = false) → wordsL (interL [' '] vs) = vs := by
  intro vs
  induction vs with
  | nil => intro _; rfl
  | cons v rest ih =>
    intro hvs
    rcases rest with _ | ⟨q, rest'⟩
    · show wordsGo v [] = [v]
      rw [wordsGo_nonWS_run v [] (hvs v (List.mem_cons_self _ _)).2
        (Or.inr (hvs v (List.mem_cons_self _ _)).1)]
      rfl
    · show wordsGo (interL [' '] (v :: q :: rest')) [] = v :: q :: rest'
      rw [show interL [' '] (v :: q :: rest') = v ++ ' ' :: interL [' '] (q :: rest') from by
        rw [interL_cons_cons]
        simp]
      rw [wordsGo_run_space v [] _ (hvs v (List.mem_cons_self _ _)).2
        (Or.inr (hvs v (List.mem_cons_self _ _)).1)]
      rw [show wordsGo (interL [' '] (q :: rest')) [] =
        wordsL (interL [' '] (q :: rest')) from rfl]
      rw [ih (fun r hr => hvs r (List.mem_cons_of_mem _ hr))]
      rfl

theorem wordsGo_acc_ne_nil : ∀ (cs acc : List Char), acc ≠ [] → wordsGo cs acc ≠ [] := by
  intro cs
  induction cs with
  | nil =>
    intro acc h
    rw [wordsGo_nil, if_neg h]
    simp
  | cons c rest ih =>
    intro acc h
    rw [wordsGo_cons]
    by_cases hw : isWS c = true
    · rw [if_pos hw, if_neg h]
      simp
    · rw [if_neg hw]
      exact ih (c :: acc) (by simp)

theorem wordsL_ne_nil (cs : List Char) (c : Char) (h : cs.head? = some c)
    (hc : isWS c = false) : wordsL cs ≠ [] := by
  rcases cs with _ | ⟨d, rest⟩
  · cases h
  · have hd : d = c := by injection h
    show wordsGo (d :: rest) [] ≠ []
    rw [wordsGo_cons, if_neg (by rw [hd, hc]; simp)]
    exact wordsGo_acc_ne_nil rest [d] (by simp)

theorem wordsGo_chars (Q : Char → Prop) : ∀ (cs acc : List Char),
    (∀ c ∈ cs, isWS c = false → Q c) → (∀ c ∈ acc, Q c ∧ isWS c = false) →
    ∀ w ∈ wordsGo cs acc, ∀ c ∈ w, Q c ∧ isWS c = false := by
  intro cs
  induction cs with
  | nil =>
    intro acc _ hacc w hw c hc
    rw [wordsGo_nil] at hw
    split at hw
    · cases hw
    · rcases List.mem_singleton.mp hw with rfl
      exact hacc c (List.mem_reverse.mp hc)
  | cons d rest ih =>
    intro acc hcs hacc w hw c hc
    rw [wordsGo_cons] at hw
    by_cases hd : isWS d = true
    · rw [if_pos hd] at hw
      split at hw
      · exact ih [] (fun x hx hwx => hcs x (List.mem_cons_of_mem _ hx) hwx)
          (by intro x hx; cases hx) w hw c hc
      · rcases List.mem_cons.mp hw with rfl | hw'
        · exact hacc c (List.mem_reverse.mp hc)
        · exact ih [] (fun x hx hwx => hcs x (List.mem_cons_of_mem _ hx) hwx)
            (by intro x hx; cases hx) w hw' c hc
    · rw [if_neg hd] at hw
      refine ih (d :: acc) (fun x hx hwx => hcs x (List.mem_cons_of_mem _ hx) hwx) ?_ w hw c hc
      intro x hx
      rcases List.mem_cons.mp hx with hx' | hx'
      · subst hx'
        exact ⟨hcs x (List.mem_cons_self _ _) (by simpa using hd), by simpa using hd⟩
      · exact hacc x hx'

theorem isWS_char_cases (c : Char) (h : isWS c = true) :
    c = ' ' ∨ c = '\t' ∨ c = '\r' ∨ c = '\n' := by
  unfold isWS Char.isWhitespace at h
  simp only [Bool.or_eq_true, decide_eq_true_eq] at h
  tauto

theorem isHeadChar_not_ws (c : Char) (h : isHeadChar c = true) : isWS c = false := by
  rcases hb : isWS c with _ | _
  · rfl
  · rcases isWS_char_cases c hb with rfl | rfl | rfl | rfl <;> exact absurd h (by decide)

theorem isHeadNameL_parts (cs : List Char) (h : isHeadNameL cs = true) :
    ∃ c rest, cs = c :: rest ∧ ('A' ≤ c ∧ c ≤ 'Z') ∧ ∀ x ∈ rest, isHeadChar x = true := by
  rcases cs with _ | ⟨c, rest⟩
  · exact absurd h (by decide)
  · unfold isHeadNameL at h
    rw [Bool.and_eq_true] at h
    refine ⟨c, rest, rfl, ?_, ?_⟩
    · have h1 := h.1
      rw [Bool.and_eq_true] at h1
      exact ⟨of_decide_eq_true h1.1, of_decide_eq_true h1.2⟩
    · intro x hx
      exact List.all_eq_true.mp h.2 x hx

theorem upper_not_ws (c : Char) (h1 : 'A' ≤ c) (h2 : c ≤ 'Z') : isWS c = false := by
  rcases hb : isWS c with _ | _
  · rfl
  · rcases isWS_char_cases c hb with rfl | rfl | rfl | rfl <;> exact absurd h1 (by decide)

theorem headName_chars_not_ws (cs : List Char) (h : isHeadNameL cs = true) :
    ∀ c ∈ cs, isWS c = false := by
  obtain ⟨c, rest, rfl, hc, hrest⟩ := isHeadNameL_parts cs h
  intro x hx
  rcases List.mem_cons.mp hx with rfl | hx'
  · exact upper_not_ws x hc.1 hc.2
  · exact isHeadChar_not_ws x (hrest x hx')

theorem headName_not_comment (cs : List Char) (h : isHeadNameL cs = true)
    (tail : List Char) : isCommentL (cs ++ tail) = false := by
  obtain ⟨c, rest, rfl, hc, -⟩ := isHeadNameL_parts cs h
  have hslash : ¬ c = '/' := by
    intro hcs
    subst hcs
    exact absurd hc.1 (by decide)
  show isCommentL (c :: (rest ++ tail)) = false
  unfold isCommentL
  split
  · next heq =>
    injection heq with h1 _
    exact absurd h1 hslash
  · rfl

theorem classifyTok_idem (t : String) : classifyTok (classifyTok t).value = classifyTok t := by
  by_cases h1 : t = "ε" ∨ t = "epsilon" ∨ t = "eps"
  · simp [classifyTok, h1]
  · by_cases h2 : isHeadName t
    · simp [classifyTok, h1, h2]
    · simp [classifyTok, h1, h2]

theorem classifyTok_wf (w : List Char) (hw1 : w ≠ [])
    (hw2 : ∀ c ∈ w, isWS c = false ∧ c ≠ '|') : SymWF (classifyTok ⟨w⟩) := by
  refine ⟨?_, ?_, classifyTok_idem _⟩ <;> unfold classifyTok <;> split
  · decide
  · split
    · exact hw1
    · exact hw1
  · decide
  · split
    · exact hw2
    · exact hw2

theorem altScan_clean (ln : Nat) (head : String) : ∀ (alts : List String),
    (∀ a ∈ alts, a ≠ "") → altScan ln head alts = ([], alts.map parseSymbols) := by
  intro alts
  induction alts with
  | nil => intro _; rfl
  | cons a rest ih =>
    intro h
    unfold altScan
    rw [ih (fun x hx => h x (List.mem_cons_of_mem _ hx))]
    dsimp only
    rw [if_neg (h a (List.mem_cons_self _ _))]
    rfl

theorem mapSet_absent {α : Type} (m : List (String × α)) (k : String) (v : α)
    (h : mapGet m k = none) : mapSet m k v = m ++ [(k, v)] := by
  induction m with
  | nil => rfl
  | cons p rest ih =>
    cases p with
    | mk a b =>
      unfold mapGet at h
      by_cases ha : a = k
      · rw [if_pos ha] at h
        cases h
      · rw [if_neg ha] at h
        show mapSet ((a, b) :: rest) k v = (a, b) :: (rest ++ [(k, v)])
        unfold mapSet
        rw [if_neg ha, ih h]

theorem mapGet_cons {α : Type} (a : String) (b : α) (rest : List (String × α)) (k : String) :
    mapGet ((a, b) :: rest) k = if a = k then some b else mapGet rest k := rfl

theorem mapGet_append_left {α : Type} (m m' : List (String × α)) (k : String) (v : α)
    (h : mapGet m k = some v) : mapGet (m ++ m') k = some v := by
  induction m with
  | nil => cases h
  | cons p rest ih =>
    cases p with
    | mk a b =>
      rw [mapGet_cons] at h
      rw [List.cons_append, mapGet_cons]
      by_cases ha : a = k
      · rwa [if_pos ha] at h ⊢
      · rw [if_neg ha] at h ⊢
        exact ih h

theorem mapGet_append_none {α : Type} (m : List (String × α)) (k k' : String) (v : α)
    (h1 : mapGet m k = none) (h2 : k ≠ k') : mapGet (m ++ [(k', v)]) k = none := by
  induction m with
  | nil =>
    show mapGet [(k', v)] k = none
    rw [mapGet_cons, if_neg (fun hc => h2 hc.symm)]
    rfl
  | cons p rest ih =>
    cases p with
    | mk a b =>
      rw [mapGet_cons] at h1
      rw [List.cons_append, mapGet_cons]
      by_cases ha : a = k
      · rw [if_pos ha] at h1
        cases h1
      · rw [if_neg ha] at h1 ⊢
        exact ih h1

theorem key_mem_isSome {α : Type} (m : List (String × α)) (k : String)
    (h : k ∈ m.map Prod.fst) : (mapGet m k).isSome = true := by
  induction m with
  | nil => cases h
  | cons p rest ih =>
    cases p with
    | mk a b =>
      rw [mapGet_cons]
      by_cases ha : a = k
      · rw [if_pos ha]
        rfl
      · rw [if_neg ha]
        rw [List.map_cons] at h
        rcases List.mem_cons.mp h with h' | h'
        · exact absurd h'.symm ha
        · exact ih h'

theorem head?_mem {α : Type} (l : List α) (c : α) (h : l.head? = some c) : c ∈ l := by
  rcases l with _ | ⟨x, r⟩
  · cases h
  · have hx : x = c := by injection h
    exact hx ▸ List.mem_cons_self x r

theorem getLast?_mem {α : Type} (l : List α) (c : α) (h : l.getLast? = some c) : c ∈ l := by
  have h' : l.reverse.head? = some c := by rw [List.head?_reverse]; exact h
  exact List.mem_reverse.mp (head?_mem _ _ h')

theorem splitCh_interL (c : Char) : ∀ (parts : List (List Char)), parts ≠ [] →
    (∀ p ∈ parts, c ∉ p) → splitCh c (interL [c] parts) = parts := by
  intro parts
  induction parts with
  | nil => intro h _; exact absurd rfl h
  | cons p rest ih =>
    intro _ hps
    rcases rest with _ | ⟨q, rest'⟩
    · exact splitCh_no_sep c p (hps p (List.mem_cons_self _ _))
    · rw [show interL [c] (p :: q :: rest') = p ++ c :: interL [c] (q :: rest') from by
        rw [interL_cons_cons]; simp]
      rw [splitCh_append c p _ (hps p (List.mem_cons_self _ _))]
      rw [ih (by simp) (fun r hr => hps r (List.mem_cons_of_mem _ hr))]

theorem trimL_cons_space (p : List Char) : trimL (' ' :: p) = trimL p := by
  unfold trimL
  rw [List.dropWhile_cons, if_pos (by decide)]

theorem trimL_append_space (p : List Char) : trimL (p ++ [' ']) = trimL p := by
  rcases hd : p.dropWhile isWS with _ | ⟨d, ds⟩
  · have hall : ∀ x ∈ p, isWS x = true := by
      intro x hx
      by_contra hc
      have hsub : p.dropWhile isWS ≠ [] := by
        have := List.dropWhile_eq_nil_iff.mp hd x hx
        simp at this
        exact absurd this (by simpa using hc)
      exact hsub hd
    have h1 : trimL (p ++ [' ']) = [] := by
      have := trimL_outer (p ++ [' ']) [] [] (by
        intro x hx
        rcases List.mem_append.mp hx with hx' | hx'
        · exact hall x hx'
        · rcases List.mem_singleton.mp hx' with rfl
          decide) (by intro x hx; cases hx) (by intro x hx; cases hx)
        (by intro x hx; cases hx)
      rwa [List.append_nil, List.append_nil] at this
    have h2 : trimL p = [] := by
      have := trimL_outer p [] [] hall (by intro x hx; cases hx)
        (by intro x hx; cases hx) (by intro x hx; cases hx)
      rwa [List.append_nil, List.append_nil] at this
    rw [h1, h2]
  · have hdws : ∀ x ∈ p.takeWhile isWS, isWS x = true := by
      intro x hx
      exact List.mem_takeWhile_imp hx
    have hhead : ∀ x, (d :: ds).head? = some x → isWS x = false := by
      intro x hx
      have hx' : x = d := by injection hx with h1; exact h1.symm
      subst hx'
      exact dropWhile_head_not p x (by rw [hd]; rfl)
    have hsplit : p ++ [' '] = p.takeWhile isWS ++ ((d :: ds) ++ [' ']) := by
      rw [← List.append_assoc, ← hd, List.takeWhile_append_dropWhile]
    have hsplit2 : p = p.takeWhile isWS ++ (d :: ds) := by
      rw [← hd, List.takeWhile_append_dropWhile]
    conv_lhs => rw [hsplit]
    conv_rhs => rw [hsplit2]
    unfold trimL
    rw [dropWhile_isWS_all _ _ hdws, dropWhile_isWS_all _ _ hdws]
    rw [dropWhile_isWS_stable ((d :: ds) ++ [' ']) (by
      intro x hx
      rw [List.cons_append] at hx
      exact hhead x hx)]
    rw [dropWhile_isWS_stable (d :: ds) hhead]
    rw [List.reverse_append]
    show ((' ' :: (d :: ds).reverse).dropWhile isWS).reverse = _
    rw [List.dropWhile_cons, if_pos (by decide)]

theorem splitCh_bar_join : ∀ (parts : List (List Char)), parts ≠ [] →
    (∀ p ∈ parts, '|' ∉ p) →
    (splitCh '|' (interL (' ' :: '|' :: [' ']) parts)).map trimL = parts.map trimL := by
  intro parts
  induction parts with
  | nil => intro h _; exact absurd rfl h
  | cons p rest ih =>
    intro _ hps
    rcases rest with _ | ⟨q, rest'⟩
    · rw [show interL (' ' :: '|' :: [' ']) [p] = p from rfl]
      rw [splitCh_no_sep _ p (hps p (List.mem_cons_self _ _))]
    · rw [show interL (' ' :: '|' :: [' ']) (p :: q :: rest') =
        (p ++ [' ']) ++ '|' :: (' ' :: interL (' ' :: '|' :: [' ']) (q :: rest')) from by
        rw [interL_cons_cons]; simp]
      rw [splitCh_append '|' (p ++ [' ']) _ (by
        intro hc
        rcases List.mem_append.mp hc with hc' | hc'
        · exact hps p (List.mem_cons_self _ _) hc'
        · rcases List.mem_singleton.mp hc' with h
          cases h)]
      have hrec := ih (by simp) (fun r hr => hps r (List.mem_cons_of_mem _ hr))
      rcases hsp : splitCh '|' (interL (' ' :: '|' :: [' ']) (q :: rest')) with _ | ⟨t, ts⟩
      · exact absurd hsp (splitCh_ne_nil _ _)
      · rw [splitCh_cons, hsp]
        dsimp only
        rw [if_neg (by decide)]
        rw [hsp, List.map_cons] at hrec
        rw [List.map_cons, List.map_cons, List.map_cons]
        rw [trimL_append_space, trimL_cons_space]
        injection hrec with h1 h2
        rw [h1, h2, List.map_cons]

theorem wordsGo_words_ne_nil : ∀ (cs acc : List Char), ∀ w ∈ wordsGo cs acc, w ≠ [] := by
  intro cs
  induction cs with
  | nil =>
    intro acc w hw
    rw [wordsGo_nil] at hw
    split at hw
    · cases hw
    · next hne =>
      rcases List.mem_singleton.mp hw with rfl
      simpa using hne
  | cons c rest ih =>
    intro acc w hw
    rw [wordsGo_cons] at hw
    by_cases hc : isWS c = true
    · rw [if_pos hc] at hw
      split at hw
      · exact ih [] w hw
      · next hne =>
        rcases List.mem_cons.mp hw with rfl | hw'
        · simpa using hne
        · exact ih [] w hw'
    · rw [if_neg hc] at hw
      exact ih (c :: acc) w hw

theorem parseSymbols_of_words (body : String) (w : List Char) (ws : List (List Char))
    (h : wordsL (trimL body.data) = w :: ws) :
    parseSymbols body = (w :: ws).map (fun v => classifyTok ⟨v⟩) := by
  unfold parseSymbols
  rw [h]

theorem serBody_data (b : List Symbol) :
    (joinSep " " (b.map Symbol.value)).data =
      interL [' '] (b.map (fun s => s.value.data)) := by
  show interL (" ").data ((b.map Symbol.value).map String.data) = _
  rw [List.map_map]
  rfl

theorem serBody_ne_nil (b : List Symbol) (hb : BodyWF b) :
    (joinSep " " (b.map Symbol.value)).data ≠ [] := by
  obtain ⟨s, b', rfl⟩ := List.exists_cons_of_ne_nil hb.1
  rw [serBody_data, List.map_cons]
  exact interL_ne_nil [' '] _ _ (hb.2 s (List.mem_cons_self _ _)).1

theorem serBody_head_not_ws (b : List Symbol) (hb : BodyWF b) :
    ∀ c, (joinSep " " (b.map Symbol.value)).data.head? = some c → isWS c = false := by
  obtain ⟨s, b', rfl⟩ := List.exists_cons_of_ne_nil hb.1
  intro c hc
  rw [serBody_data, List.map_cons] at hc
  rw [interL_head? [' '] _ _ (hb.2 s (List.mem_cons_self _ _)).1] at hc
  exact ((hb.2 s (List.mem_cons_self _ _)).2.1 c (head?_mem _ _ hc)).1

theorem serBody_getLast_not_ws (b : List Symbol) (hb : BodyWF b) :
    ∀ c, (joinSep " " (b.map Symbol.value)).data.getLast? = some c → isWS c = false := by
  intro c hc
  rw [serBody_data] at hc
  refine interL_getLast_prop [' '] (fun x => isWS x = false) _ ?_ c hc
  intro p hp
  rcases List.mem_map.mp hp with ⟨s, hs, rfl⟩
  exact ⟨(hb.2 s hs).1, fun x hx => ((hb.2 s hs).2.1 x (getLast?_mem _ _ hx)).1⟩

theorem serBody_chars (b : List Symbol) (hb : BodyWF b) :
    ∀ c ∈ (joinSep " " (b.map Symbol.value)).data,
      c = ' ' ∨ (isWS c = false ∧ c ≠ '|') := by
  intro c hc
  rw [serBody_data] at hc
  rcases interL_chars [' '] _ c hc with h | ⟨p, hp, hcp⟩
  · left; exact List.mem_singleton.mp h
  · right
    rcases List.mem_map.mp hp with ⟨s, hs, rfl⟩
    exact (hb.2 s hs).2.1 c hcp

theorem serBody_no_bar (b : List Symbol) (hb : BodyWF b) :
    '|' ∉ (joinSep " " (b.map Symbol.value)).data := by
  intro hc
  rcases serBody_chars b hb '|' hc with h | ⟨-, h⟩
  · cases h
  · exact h rfl

theorem serBody_trim (b : List Symbol) (hb : BodyWF b) :
    trimL (joinSep " " (b.map Symbol.value)).data =
      (joinSep " " (b.map Symbol.value)).data := by
  have h := trimL_outer [] (joinSep " " (b.map Symbol.value)).data []
    (by intro x hx; cases hx) (by intro x hx; cases hx)
    (serBody_head_not_ws b hb) (serBody_getLast_not_ws b hb)
  rwa [List.nil_append, List.append_nil] at h

theorem parseSymbols_serialized (b : List Symbol) (hb : BodyWF b) :
    parseSymbols (joinSep " " (b.map Symbol.value)) = b := by
  have hwords : wordsL (trimL (joinSep " " (b.map Symbol.value)).data) =
      b.map (fun s => s.value.data) := by
    rw [serBody_trim b hb, serBody_data]
    refine wordsL_join _ ?_
    intro v hv
    rcases List.mem_map.mp hv with ⟨s, hs, rfl⟩
    exact ⟨(hb.2 s hs).1, fun c hc => ((hb.2 s hs).2.1 c hc).1⟩
  rcases hmap : b.map (fun s => s.value.data) with _ | ⟨w, ws⟩
  · have hbnil : b = [] := by
      rcases b with _ | ⟨s, b'⟩
      · rfl
      · cases hmap
    exact absurd hbnil hb.1
  · rw [parseSymbols_of_words _ w ws (by rw [hwords, hmap])]
    rw [← hmap, List.map_map]
    have hid : ∀ s ∈ b, ((fun v => classifyTok ⟨v⟩) ∘ fun s => s.value.data) s = id s := by
      intro s hs
      exact (hb.2 s hs).2.2
    rw [List.map_congr_left hid, List.map_id]

theorem parseSymbols_wf (a : String) (ha : a.data ≠ []) (htr : trimL a.data = a.data)
    (hbar : '|' ∉ a.data) : BodyWF (parseSymbols a) := by
  obtain ⟨c, cs', hcs⟩ := List.exists_cons_of_ne_nil ha
  have hchead : isWS c = false := by
    refine trimL_head_not_ws a.data c ?_
    rw [htr, hcs]
    rfl
  have hne : wordsL (trimL a.data) ≠ [] := by
    rw [htr]
    exact wordsL_ne_nil a.data c (by rw [hcs]; rfl) hchead
  rcases hw : wordsL (trimL a.data) with _ | ⟨w, ws⟩
  · exact absurd hw hne
  · rw [parseSymbols_of_words a w ws hw]
    constructor
    · simp
    · intro s hs
      rcases List.mem_map.mp hs with ⟨v, hv, rfl⟩
      have hv' : v ∈ wordsGo a.data [] := by
        rw [htr] at hw
        rw [show wordsGo a.data [] = wordsL a.data from rfl, hw]
        exact hv
      refine classifyTok_wf v (wordsGo_words_ne_nil a.data [] v hv') ?_
      have hchars := wordsGo_chars (fun x => x ≠ '|') a.data []
        (fun x hx _ => fun he => hbar (he ▸ hx))
        (by intro x hx; cases hx) v hv'
      intro x hx
      exact ⟨(hchars x hx).2, (hchars x hx).1⟩

theorem takeWhile_nonws_append (hd tl : List Char) (hhd : ∀ c ∈ hd, isWS c = false) :
    (hd ++ ' ' :: tl).takeWhile (fun c => !isWS c) = hd := by
  induction hd with
  | nil =>
    show (' ' :: tl).takeWhile (fun c => !isWS c) = []
    rw [List.takeWhile_cons, if_neg (by decide)]
  | cons c r ih =>
    show ((c :: (r ++ ' ' :: tl)).takeWhile (fun c => !isWS c)) = c :: r
    rw [List.takeWhile_cons,
      if_pos (by rw [hhd c (List.mem_cons_self _ _)]; rfl)]
    rw [ih (fun x hx => hhd x (List.mem_cons_of_mem _ hx))]

theorem matchAt_serialized (hd : List Char) (c : Char) (tl : List Char)
    (hc : isWS c = false) :
    matchAt (hd ++ ' ' :: '-' :: '>' :: ' ' :: c :: tl) hd.length = some (hd, c :: tl) := by
  unfold matchAt
  dsimp only
  rw [List.take_left, List.drop_left]
  rw [List.dropWhile_cons, if_pos (by decide)]
  rw [List.dropWhile_cons, if_neg (by decide)]
  dsimp only
  rw [if_pos ⟨rfl, rfl⟩]
  rw [List.dropWhile_cons, if_pos (by decide)]
  rw [List.dropWhile_cons, if_neg (by simp [hc])]

theorem tryFrom_succ (cs : List Char) (k : Nat) :
    tryFrom cs (k + 1) =
      match matchAt cs (k + 1) with
      | some r => some r
      | none => tryFrom cs k := rfl

theorem matchArrowL_serialized (hd : List Char) (c : Char) (tl : List Char)
    (hhd : hd ≠ []) (hhdw : ∀ x ∈ hd, isWS x = false) (hc : isWS c = false) :
    matchArrowL (hd ++ ' ' :: '-' :: '>' :: ' ' :: c :: tl) = some (hd, c :: tl) := by
  unfold matchArrowL
  rw [takeWhile_nonws_append hd _ hhdw]
  rcases hd with _ | ⟨d, hd'⟩
  · exact absurd rfl hhd
  · rw [show (d :: hd').length = hd'.length + 1 from rfl]
    rw [tryFrom_succ, show hd'.length + 1 = (d :: hd').length from rfl]
    rw [matchAt_serialized (d :: hd') c tl hc]

theorem serAlts_data (alts : List String) :
    (joinSep " | " alts).data = interL (' ' :: '|' :: [' ']) (alts.map String.data) := rfl

theorem lineAlternatives_serialized (alts : List String) (hne : alts ≠ [])
    (hgood : ∀ a ∈ alts, '|' ∉ a.data ∧ trimL a.data = a.data) :
    lineAlternatives (joinSep " | " alts) = alts := by
  unfold lineAlternatives
  rw [serAlts_data]
  have hsplit := splitCh_bar_join (alts.map String.data)
    (by
      rcases alts with _ | ⟨a, r⟩
      · exact absurd rfl hne
      · simp)
    (by
      intro p hp
      rcases List.mem_map.mp hp with ⟨a, ha, rfl⟩
      exact (hgood a ha).1)
  have hstable : List.map trimL (List.map String.data alts) = List.map String.data alts := by
    rw [List.map_map]
    refine List.map_congr_left ?_
    intro a ha
    exact (hgood a ha).2
  have hcomp : List.map (fun cs => (⟨trimL cs⟩ : String))
      (splitCh '|' (interL (' ' :: '|' :: [' ']) (List.map String.data alts))) =
      List.map (fun cs => (⟨cs⟩ : String))
        (List.map trimL (splitCh '|' (interL (' ' :: '|' :: [' ']) (List.map String.data alts)))) := by
    rw [List.map_map]
    exact List.map_congr_left (fun a _ => rfl)
  rw [hcomp, hsplit, hstable, List.map_map]
  have hid : List.map ((fun cs => (⟨cs⟩ : String)) ∘ String.data) alts = List.map id alts :=
    List.map_congr_left (fun a _ => rfl)
  rw [hid, List.map_id]

theorem altScan_no_errors (ln : Nat) (head : String) : ∀ (alts : List String),
    (altScan ln head alts).1 = [] →
    (∀ a ∈ alts, a ≠ "") ∧ (altScan ln head alts).2 = alts.map parseSymbols := by
  intro alts
  induction alts with
  | nil =>
    intro _
    exact ⟨(by intro a ha; cases ha), rfl⟩
  | cons a rest ih =>
    intro h
    rcases hrec : altScan ln head rest with ⟨es, bs⟩
    rw [show altScan ln head (a :: rest) =
        (if a = "" then (⟨ln, 1, emptyAltMsg head⟩ :: es, bs) else (es, parseSymbols a :: bs))
      from by unfold altScan; rw [hrec]] at h ⊢
    by_cases ha : a = ""
    · rw [if_pos ha] at h
      exact absurd h (by simp)
    · rw [if_neg ha] at h ⊢
      have hes : es = [] := h
      have hrest := ih (by rw [hrec]; exact hes)
      refine ⟨?_, ?_⟩
      · intro x hx
        rcases List.mem_cons.mp hx with rfl | hx'
        · exact ha
        · exact hrest.1 x hx'
      · show parseSymbols a :: bs = (a :: rest).map parseSymbols
        rw [List.map_cons]
        have h2 := hrest.2
        rw [hrec] at h2
        have h2' : bs = List.map parseSymbols rest := h2
        rw [h2']

theorem formatProduction_data (h : String) (bs : List (List Symbol)) :
    (formatProduction h bs).data =
      h.data ++ ' ' :: '-' :: '>' :: ' ' ::
        (joinSep " | " (bs.map (fun b => joinSep " " (b.map Symbol.value)))).data := by
  unfold formatProduction
  rw [String.data_append, String.data_append, List.append_assoc]
  rfl

theorem serAlts_ne_nil (bs : List (List Symbol)) (hne : bs ≠ [])
    (hwf : ∀ b ∈ bs, BodyWF b) :
    (joinSep " | " (bs.map (fun b => joinSep " " (b.map Symbol.value)))).data ≠ [] := by
  obtain ⟨b, bs', rfl⟩ := List.exists_cons_of_ne_nil hne
  rw [serAlts_data, List.map_cons, List.map_cons]
  exact interL_ne_nil _ _ _ (serBody_ne_nil b (hwf b (List.mem_cons_self _ _)))

theorem serAlts_head_not_ws (bs : List (List Symbol)) (hne : bs ≠ [])
    (hwf : ∀ b ∈ bs, BodyWF b) :
    ∀ c, (joinSep " | " (bs.map (fun b => joinSep " " (b.map Symbol.value)))).data.head? =
      some c → isWS c = false := by
  obtain ⟨b, bs', rfl⟩ := List.exists_cons_of_ne_nil hne
  intro c hc
  rw [serAlts_data, List.map_cons, List.map_cons,
    interL_head? _ _ _ (serBody_ne_nil b (hwf b (List.mem_cons_self _ _)))] at hc
  exact serBody_head_not_ws b (hwf b (List.mem_cons_self _ _)) c hc

theorem serAlts_getLast_not_ws (bs : List (List Symbol)) (hwf : ∀ b ∈ bs, BodyWF b) :
    ∀ c, (joinSep " | " (bs.map (fun b => joinSep " " (b.map Symbol.value)))).data.getLast? =
      some c → isWS c = false := by
  intro c hc
  rw [serAlts_data, List.map_map] at hc
  refine interL_getLast_prop _ (fun x => isWS x = false) _ ?_ c hc
  intro p hp
  rcases List.mem_map.mp hp with ⟨b, hb, rfl⟩
  exact ⟨serBody_ne_nil b (hwf b hb), fun x hx => serBody_getLast_not_ws b (hwf b hb) x hx⟩

theorem serAlts_chars (bs : List (List Symbol)) (hwf : ∀ b ∈ bs, BodyWF b) :
    ∀ c ∈ (joinSep " | " (bs.map (fun b => joinSep " " (b.map Symbol.value)))).data,
      c = ' ' ∨ c = '|' ∨ isWS c = false := by
  intro c hc
  rw [serAlts_data, List.map_map] at hc
  rcases interL_chars _ _ c hc with h | ⟨p, hp, hcp⟩
  · rcases List.mem_cons.mp h with rfl | h'
    · left; rfl
    · rcases List.mem_cons.mp h' with rfl | h''
      · right; left; rfl
      · left; exact List.mem_singleton.mp h''
  · rcases List.mem_map.mp hp with ⟨b, hb, rfl⟩
    rcases serBody_chars b (hwf b hb) c hcp with h' | ⟨h', -⟩
    · left; exact h'
    · right; right; exact h'

theorem getLast?_append_right {α : Type} (xs ys : List α) (y : α)
    (h : ys.getLast? = some y) : (xs ++ ys).getLast? = some y := by
  rw [List.getLast?_append, h, Option.or_some]

theorem line_trim (hS : String) (bs : List (List Symbol)) (hh : isHeadName hS = true)
    (hne : bs ≠ []) (hwf : ∀ b ∈ bs, BodyWF b) :
    trimL (formatProduction hS bs).data = (formatProduction hS bs).data := by
  obtain ⟨c0, hrest, hcs, hc0, -⟩ := isHeadNameL_parts hS.data hh
  have h := trimL_outer [] (formatProduction hS bs).data []
    (by intro x hx; cases hx) (by intro x hx; cases hx)
    (by
      intro x hx
      rw [formatProduction_data, hcs, List.cons_append] at hx
      have hxc : c0 = x := by injection hx
      rw [← hxc]
      exact upper_not_ws c0 hc0.1 hc0.2)
    (by
      intro x hx
      rw [formatProduction_data] at hx
      rcases hg : (joinSep " | "
          (bs.map (fun b => joinSep " " (b.map Symbol.value)))).data.getLast? with _ | y
      · exact absurd (List.getLast?_eq_none_iff.mp hg) (serAlts_ne_nil bs hne hwf)
      · have h2 : (hS.data ++ ' ' :: '-' :: '>' :: ' ' ::
            (joinSep " | " (bs.map (fun b => joinSep " " (b.map Symbol.value)))).data).getLast?
              = some y :=
          getLast?_append_right hS.data _ y
            (getLast?_append_right [' ', '-', '>', ' '] _ y hg)
        rw [h2] at hx
        have hxy : y = x := by injection hx
        subst hxy
        exact serAlts_getLast_not_ws bs hwf y hg)
  rwa [List.nil_append, List.append_nil] at h

theorem processLine_eq (i : Nat) (raw : String) (st : ParseState) :
    processLine i raw st =
      (if trimL raw.data = [] ∨ isCommentL (trimL raw.data) = true then st
       else
         match matchArrowL (trimL raw.data) with
         | none => { st with errors := st.errors ++ [⟨i + 1, 1, invalidFormatMsg⟩] }
         | some (headCs, bodyCs) =>
           if ¬ isHeadName (⟨headCs⟩ : String) = true then
             { st with errors := st.errors ++ [⟨i + 1, 1, badHeadMsg ⟨headCs⟩⟩] }
           else
             { errors := st.errors ++
                 (altScan (i + 1) ⟨headCs⟩ (lineAlternatives ⟨bodyCs⟩)).1
               productions := mapSet st.productions ⟨headCs⟩
                 ((mapGet st.productions ⟨headCs⟩).getD [] ++
                   (altScan (i + 1) ⟨headCs⟩ (lineAlternatives ⟨bodyCs⟩)).2)
               nonTerminals := insertUniq st.nonTerminals ⟨headCs⟩
               startSymbol := if st.startSymbol = "" then ⟨headCs⟩ else st.startSymbol }) := rfl

theorem insertUniq_nil (x : String) : insertUniq [] x = [x] := by
  unfold insertUniq
  rw [if_neg (by simp)]
  rfl

theorem processLine_serialized (i : Nat) (hS : String) (bs : List (List Symbol))
    (st : ParseState) (hwf : EntryWF hS bs)
    (hfresh : mapGet st.productions hS = none) :
    processLine i (formatProduction hS bs) st =
      ⟨st.errors, st.productions ++ [(hS, bs)], insertUniq st.nonTerminals hS,
        if st.startSymbol = "" then hS else st.startSymbol⟩ := by
  obtain ⟨hh, hbne, hbwf⟩ := hwf
  obtain ⟨c0, hrest, hcs, hc0, -⟩ := isHeadNameL_parts hS.data hh
  obtain ⟨ac, atl, hadata⟩ :=
    List.exists_cons_of_ne_nil (serAlts_ne_nil bs hbne hbwf)
  have hacws : isWS ac = false :=
    serAlts_head_not_ws bs hbne hbwf ac (by rw [hadata]; rfl)
  have htrim := line_trim hS bs hh hbne hbwf
  have hdata : (formatProduction hS bs).data =
      hS.data ++ ' ' :: '-' :: '>' :: ' ' :: ac :: atl := by
    rw [formatProduction_data, hadata]
  have hmatch : matchArrowL (trimL (formatProduction hS bs).data) =
      some (hS.data, ac :: atl) := by
    rw [htrim, hdata]
    exact matchArrowL_serialized hS.data ac atl (by rw [hcs]; simp)
      (headName_chars_not_ws hS.data hh) hacws
  have hnotskip : ¬ (trimL (formatProduction hS bs).data = [] ∨
      isCommentL (trimL (formatProduction hS bs).data) = true) := by
    rw [htrim]
    intro hor
    rcases hor with h1 | h2
    · rw [hdata, hcs, List.cons_append] at h1
      cases h1
    · rw [hdata, headName_not_comment hS.data hh _] at h2
      cases h2
  rw [processLine_eq, if_neg hnotskip, hmatch]
  dsimp only
  rw [show (⟨hS.data⟩ : String) = hS from rfl]
  rw [if_neg (fun hcon => hcon hh)]
  have hbody : (⟨ac :: atl⟩ : String) =
      joinSep " | " (bs.map (fun b => joinSep " " (b.map Symbol.value))) := by
    rw [← hadata]
  rw [hbody]
  rw [lineAlternatives_serialized _
    (by
      rcases List.exists_cons_of_ne_nil hbne with ⟨b, bs', rfl⟩
      simp)
    (by
      intro a ha
      rcases List.mem_map.mp ha with ⟨b, hb, rfl⟩
      exact ⟨serBody_no_bar b (hbwf b hb), serBody_trim b (hbwf b hb)⟩)]
  rw [altScan_clean (i + 1) hS _
    (by
      intro a ha
      rcases List.mem_map.mp ha with ⟨b, hb, rfl⟩
      intro hanil
      exact serBody_ne_nil b (hbwf b hb) (congrArg String.data hanil))]
  dsimp only
  rw [List.append_nil, hfresh]
  rw [show (none : Option (List (List Symbol))).getD [] = [] from rfl]
  rw [List.nil_append]
  rw [show (bs.map (fun b => joinSep " " (b.map Symbol.value))).map parseSymbols = bs from by
    rw [List.map_map]
    have hid : List.map (parseSymbols ∘ fun b => joinSep " " (b.map Symbol.value)) bs
        = List.map id bs :=
      List.map_congr_left (fun b hb => parseSymbols_serialized b (hbwf b hb))
    rw [hid, List.map_id]]
  rw [mapSet_absent st.productions hS bs hfresh]

theorem processLines_cons (i : Nat) (l : String) (rest : List String) (st : ParseState) :
    processLines i (l :: rest) st = processLines (i + 1) rest (processLine i l st) := rfl

theorem foldl_insertUniq_keys {β : Type} :
    ∀ (l : List (String × β)) (acc : List String),
      (l.map Prod.fst).Nodup → (∀ k ∈ l.map Prod.fst, k ∉ acc) →
      l.foldl (fun a p => insertUniq a p.1) acc = acc ++ l.map Prod.fst := by
  intro l
  induction l with
  | nil => intro acc _ _; simp
  | cons p rest ih =>
    intro acc hnd hfr
    rw [List.foldl_cons]
    rw [show insertUniq acc p.1 = acc ++ [p.1] from by
      unfold insertUniq
      rw [if_neg (hfr p.1 (by rw [List.map_cons]; exact List.mem_cons_self _ _))]]
    rw [List.map_cons] at hnd hfr ⊢
    rw [ih (acc ++ [p.1]) (List.nodup_cons.mp hnd).2 ?_]
    · rw [List.append_assoc]
      rfl
    · intro k hk hmem
      rcases List.mem_append.mp hmem with h1 | h1
      · exact hfr k (List.mem_cons_of_mem _ hk) h1
      · rcases List.mem_singleton.mp h1 with rfl
        exact (List.nodup_cons.mp hnd).1 hk

theorem processLines_serialized_aux :
    ∀ (prods : List (String × List (List Symbol))) (i : Nat) (st : ParseState),
      (∀ e ∈ prods, EntryWF e.1 e.2) →
      (prods.map Prod.fst).Nodup →
      (∀ e ∈ prods, mapGet st.productions e.1 = none) →
      st.startSymbol ≠ "" →
      processLines i (prods.map (fun p => formatProduction p.1 p.2)) st =
        ⟨st.errors, st.productions ++ prods,
          prods.foldl (fun a p => insertUniq a p.1) st.nonTerminals, st.startSymbol⟩ := by
  intro prods
  induction prods with
  | nil =>
    intro i st _ _ _ _
    show st = _
    rw [List.append_nil]
    rfl
  | cons p rest ih =>
    intro i st hwf hnd hfr hstart
    rw [List.map_cons, processLines_cons]
    rw [processLine_serialized i p.1 p.2 st
      (hwf p (List.mem_cons_self _ _)) (hfr p (List.mem_cons_self _ _))]
    rw [if_neg hstart]
    rw [List.map_cons] at hnd
    have hfr2 : ∀ e ∈ rest,
        mapGet (st.productions ++ [(p.1, p.2)]) e.1 = none := by
      intro e he
      refine mapGet_append_none st.productions e.1 p.1 p.2
        (hfr e (List.mem_cons_of_mem _ he)) ?_
      intro hk
      exact (List.nodup_cons.mp hnd).1
        (hk ▸ List.mem_map_of_mem Prod.fst he)
    rw [ih (i + 1) ⟨st.errors, st.productions ++ [(p.1, p.2)],
        insertUniq st.nonTerminals p.1, st.startSymbol⟩
      (fun e he => hwf e (List.mem_cons_of_mem _ he))
      (List.nodup_cons.mp hnd).2 hfr2 hstart]
    show (⟨st.errors, (st.productions ++ [(p.1, p.2)]) ++ rest,
        rest.foldl (fun a q => insertUniq a q.1) (insertUniq st.nonTerminals p.1),
        st.startSymbol⟩ : ParseState) = _
    rw [List.append_assoc]
    rfl

theorem processLines_serialized (G : Grammar) (hG : GrammarWF G) :
    processLines 0 (G.productions.map (fun p => formatProduction p.1 p.2)) ⟨[], [], [], ""⟩ =
      ⟨[], G.productions, G.productions.map Prod.fst, G.startSymbol⟩ := by
  obtain ⟨hne, hstart, hnd, hwf, -⟩ := hG
  obtain ⟨p, rest, hps⟩ := List.exists_cons_of_ne_nil hne
  have hp1 : p.1 = G.startSymbol := by
    rw [hps] at hstart
    exact Option.some.inj hstart
  have hpwf : EntryWF p.1 p.2 := hwf p (by rw [hps]; exact List.mem_cons_self _ _)
  have hp1ne : p.1 ≠ "" := by
    intro h0
    have hh := hpwf.1
    rw [h0] at hh
    cases hh
  rw [hps, List.map_cons] at hnd
  rw [hps, List.map_cons, processLines_cons]
  rw [processLine_serialized 0 p.1 p.2 ⟨[], [], [], ""⟩ hpwf rfl]
  dsimp only
  rw [List.nil_append, insertUniq_nil, if_pos rfl]
  have hfr2 : ∀ e ∈ rest, mapGet [(p.1, p.2)] e.1 = none := by
    intro e he
    have hne2 : ¬ p.1 = e.1 := by
      intro hk
      have hmem : e.1 ∈ List.map Prod.fst rest := List.mem_map_of_mem Prod.fst he
      rw [← hk] at hmem
      exact (List.nodup_cons.mp hnd).1 hmem
    rw [mapGet_cons, if_neg hne2]
    rfl
  rw [processLines_serialized_aux rest 1 ⟨[], [(p.1, p.2)], [p.1], p.1⟩
    (fun e he => hwf e (by rw [hps]; exact List.mem_cons_of_mem _ he))
    (List.nodup_cons.mp hnd).2 hfr2 hp1ne]
  show (⟨[], [(p.1, p.2)] ++ rest,
      rest.foldl (fun a q => insertUniq a q.1) [p.1], p.1⟩ : ParseState) = _
  rw [foldl_insertUniq_keys rest [p.1] (List.nodup_cons.mp hnd).2
    (by
      intro k hk hmem
      rcases List.mem_singleton.mp hmem with rfl
      exact (List.nodup_cons.mp hnd).1 hk)]
  rw [← hp1]
  rfl

theorem grammarToString_wf (G : Grammar) (hne : G.productions ≠ [])
    (hstart : G.productions.head?.map Prod.fst = some G.startSymbol)
    (hnd : (G.productions.map Prod.fst).Nodup) :
    grammarToString G =
      joinSep "\n" (G.productions.map (fun p => formatProduction p.1 p.2)) := by
  obtain ⟨p, rest, hps⟩ := List.exists_cons_of_ne_nil hne
  rcases p with ⟨a, bsa⟩
  have hp1 : a = G.startSymbol := by
    rw [hps] at hstart
    exact Option.some.inj hstart
  subst hp1
  rw [hps, List.map_cons] at hnd
  unfold grammarToString
  rw [hps]
  dsimp only
  rw [mapGet_cons, if_pos rfl]
  rw [List.filter_cons, if_neg (by simp)]
  rw [List.filter_eq_self.mpr (by
    intro q hq
    refine decide_eq_true ?_
    intro hk
    have hmem : q.1 ∈ List.map Prod.fst rest := List.mem_map_of_mem Prod.fst hq
    rw [hk] at hmem
    exact (List.nodup_cons.mp hnd).1 hmem)]
  rfl

theorem foldl_preserve_mem {α β : Type} (P : β → Prop) (f : β → α → β) :
    ∀ (l : List α) (s : β), P s → (∀ s x, x ∈ l → P s → P (f s x)) → P (l.foldl f s) := by
  intro l
  induction l with
  | nil => intro s hs _; exact hs
  | cons x xs ih =>
    intro s hs hstep
    rw [List.foldl_cons]
    exact ih (f s x) (hstep s x (List.mem_cons_self _ _) hs)
      (fun s y hy hP => hstep s y (List.mem_cons_of_mem _ hy) hP)

theorem foldl_reaches {α β : Type} (P : β → Prop) (f : β → α → β)
    (hmono : ∀ s x, P s → P (f s x)) (x0 : α) (hhit : ∀ s, P (f s x0)) :
    ∀ (l : List α) (s : β), x0 ∈ l → P (l.foldl f s) := by
  intro l
  induction l with
  | nil => intro s hx; cases hx
  | cons y ys ih =>
    intro s hx
    rw [List.foldl_cons]
    rcases List.mem_cons.mp hx with rfl | hx'
    · exact foldl_preserve_mem P f ys (f s x0) (hhit s) (fun s x _ hP => hmono s x hP)
    · exact ih (f s y) hx'

theorem mem_insertUniq (l : List String) (y x : String) :
    x ∈ insertUniq l y ↔ x ∈ l ∨ x = y := by
  unfold insertUniq
  split
  · next hy =>
    constructor
    · intro h; exact Or.inl h
    · intro h
      rcases h with h | rfl
      · exact h
      · exact hy
  · next hy =>
    simp [List.mem_append]

theorem classifySyms_cons (t : Symbol) (rest : List Symbol)
    (acc : List String × List String) :
    classifySyms (t :: rest) acc = classifySyms rest (classifySyms [t] acc) := rfl

theorem classifySyms_mono (x : String) : ∀ (b : List Symbol)
    (acc : List String × List String), x ∈ acc.1 → x ∈ (classifySyms b acc).1 := by
  intro b
  induction b with
  | nil => intro acc hx; exact hx
  | cons t rest ih =>
    intro acc hx
    rw [classifySyms_cons]
    refine ih (classifySyms [t] acc) ?_
    obtain ⟨ty, v⟩ := t
    cases ty
    · exact hx
    · exact (mem_insertUniq _ _ _).mpr (Or.inl hx)
    · exact hx

theorem classifySyms_hit (s : Symbol) (hty : s.type = SymType.nonterminal) :
    ∀ (b : List Symbol) (acc : List String × List String),
      s ∈ b → s.value ∈ (classifySyms b acc).1 := by
  intro b
  induction b with
  | nil => intro acc hs; cases hs
  | cons t rest ih =>
    intro acc hs
    rw [classifySyms_cons]
    rcases List.mem_cons.mp hs with rfl | hs'
    · refine classifySyms_mono s.value rest _ ?_
      obtain ⟨ty, v⟩ := s
      have hty' : ty = SymType.nonterminal := hty
      subst hty'
      exact (mem_insertUniq _ _ _).mpr (Or.inr rfl)
    · exact ih (classifySyms [t] acc) hs'

theorem classifySyms_sources : ∀ (b : List Symbol) (acc : List String × List String),
    ∀ x ∈ (classifySyms b acc).1,
      x ∈ acc.1 ∨ ∃ s ∈ b, s.type = SymType.nonterminal ∧ s.value = x := by
  intro b
  induction b with
  | nil => intro acc x hx; exact Or.inl hx
  | cons t rest ih =>
    intro acc x hx
    rw [classifySyms_cons] at hx
    rcases ih (classifySyms [t] acc) x hx with h | ⟨s, hs, hty, hv⟩
    · obtain ⟨ty, v⟩ := t
      cases ty
      · exact Or.inl h
      · rcases (mem_insertUniq acc.1 v x).mp h with h' | rfl
        · exact Or.inl h'
        · exact Or.inr ⟨⟨SymType.nonterminal, x⟩, List.mem_cons_self _ _, rfl, rfl⟩
      · exact Or.inl h
    · exact Or.inr ⟨s, List.mem_cons_of_mem _ hs, hty, hv⟩

theorem classifyAll_complete (prods : List (String × List (List Symbol))) (nts : List String)
    (e : String × List (List Symbol)) (he : e ∈ prods) (b : List Symbol) (hb : b ∈ e.2)
    (s : Symbol) (hs : s ∈ b) (hty : s.type = SymType.nonterminal) :
    s.value ∈ (classifyAll prods nts).1 := by
  unfold classifyAll
  refine foldl_reaches (fun a => s.value ∈ a.1)
    (fun acc p => p.2.foldl (fun acc b => classifySyms b acc) acc) ?_ e ?_ prods (nts, []) he
  · intro a p hP
    exact foldl_preserve_mem (fun a => s.value ∈ a.1) (fun acc b => classifySyms b acc)
      p.2 a hP (fun a bb _ hP => classifySyms_mono s.value bb a hP)
  · intro a
    refine foldl_reaches (fun a => s.value ∈ a.1) (fun acc b => classifySyms b acc)
      ?_ b ?_ e.2 a hb
    · intro a bb hP
      exact classifySyms_mono s.value bb a hP
    · intro a
      exact classifySyms_hit s hty b a hs

theorem classifyAll_sources (prods : List (String × List (List Symbol))) (nts : List String) :
    ∀ x ∈ (classifyAll prods nts).1, x ∈ nts ∨
      ∃ e ∈ prods, ∃ b ∈ e.2, ∃ s ∈ b, s.type = SymType.nonterminal ∧ s.value = x := by
  unfold classifyAll
  intro x hx
  refine foldl_preserve_mem
    (fun a => ∀ y ∈ a.1, y ∈ nts ∨ ∃ e ∈ prods, ∃ b ∈ e.2, ∃ s ∈ b,
      s.type = SymType.nonterminal ∧ s.value = y)
    (fun acc p => p.2.foldl (fun acc b => classifySyms b acc) acc)
    prods (nts, []) ?_ ?_ x hx
  · intro y hy; exact Or.inl hy
  · intro a p hp hP
    refine foldl_preserve_mem
      (fun a => ∀ y ∈ a.1, y ∈ nts ∨ ∃ e ∈ prods, ∃ b ∈ e.2, ∃ s ∈ b,
        s.type = SymType.nonterminal ∧ s.value = y)
      (fun acc b => classifySyms b acc) p.2 a hP ?_
    intro a bb hbb hP y hy
    rcases classifySyms_sources bb a y hy with h | ⟨s, hsb, hty, hv⟩
    · exact hP y h
    · exact Or.inr ⟨p, hp, bb, hbb, s, hsb, hty, hv⟩

theorem undefinedErrors_nil_iff (nts : List String)
    (prods : List (String × List (List Symbol))) :
    undefinedErrors nts prods = [] ↔
      ∀ nt ∈ nts, (mapGet prods nt).isSome = true ∨ nt = "ε" := by
  unfold undefinedErrors
  rw [List.filterMap_eq_nil_iff]
  constructor
  · intro h nt hnt
    have h2 := h nt hnt
    rcases hopt : mapGet prods nt with _ | v
    · rw [hopt] at h2
      by_cases he : nt = "ε"
      · exact Or.inr he
      · rw [if_pos ⟨rfl, he⟩] at h2
        cases h2
    · left
      rfl
  · intro h nt hnt
    rcases h nt hnt with h3 | h3
    · rcases hopt : mapGet prods nt with _ | v
      · rw [hopt] at h3
        exact absurd h3 (by decide)
      · rw [if_neg (fun hc => absurd hc.1 (by simp))]
    · rw [if_neg (fun hc => hc.2 h3)]

theorem finishParse_success (g : Grammar) (errs : List ValidationError) (G : Grammar)
    (h : finishParse g errs = (some G, [])) : errs = [] ∧ g = G := by
  unfold finishParse at h
  split at h
  · next he =>
    refine ⟨he, ?_⟩
    have h1 : (some g : Option Grammar) = some G := congrArg Prod.fst h
    exact Option.some.inj h1
  · next he =>
    have h1 : (none : Option Grammar) = some G := congrArg Prod.fst h
    exact Option.noConfusion h1

theorem parseGrammar_via (input : String) (st : ParseState)
    (hst : processLines 0 ((splitCh '\n' input.data).map (fun cs => (⟨cs⟩ : String)))
      ⟨[], [], [], ""⟩ = st) :
    parseGrammar input =
      finishParse ⟨st.startSymbol, (classifyAll st.productions st.nonTerminals).1,
          (classifyAll st.productions st.nonTerminals).2, st.productions⟩
        ((st.errors ++
          (if st.productions = [] ∧ st.errors = []
            then [⟨1, 1, "No productions found"⟩] else []))
          ++ undefinedErrors (classifyAll st.productions st.nonTerminals).1
              st.productions) := by
  subst hst
  rfl

theorem headName_ne_empty (s : String) (h : isHeadName s = true) : s ≠ "" := by
  intro h0
  rw [h0] at h
  exact absurd h (by decide)

theorem ne_empty_data (s : String) (h : s ≠ "") : s.data ≠ [] := by
  rcases s with ⟨d⟩
  intro hd
  apply h
  have hd' : d = [] := hd
  rw [hd']

theorem lineAlternatives_ne_nil (s : String) : lineAlternatives s ≠ [] := by
  unfold lineAlternatives
  rcases hsp : splitCh '|' s.data with _ | ⟨t, ts⟩
  · exact absurd hsp (splitCh_ne_nil _ _)
  · simp

theorem mapSet_head_key {α : Type} (m : List (String × α)) (k : String) (v : α)
    (hne : m ≠ []) : (mapSet m k v).head?.map Prod.fst = m.head?.map Prod.fst := by
  rcases m with _ | ⟨⟨a, b⟩, rest⟩
  · exact absurd rfl hne
  · show (if a = k then (k, v) :: rest else (a, b) :: mapSet rest k v).head?.map Prod.fst = _
    by_cases ha : a = k
    · rw [if_pos ha]
      subst ha
      rfl
    · rw [if_neg ha]
      rfl

theorem processLine_inv (i : Nat) (raw : String) (st : ParseState) (hinv : StInv st) :
    StInv (processLine i raw st) := by
  obtain ⟨h1, h2, h3⟩ := hinv
  rw [processLine_eq]
  by_cases hskip : trimL raw.data = [] ∨ isCommentL (trimL raw.data) = true
  · rw [if_pos hskip]
    exact ⟨h1, h2, h3⟩
  · rw [if_neg hskip]
    rcases hm : matchArrowL (trimL raw.data) with _ | ⟨headCs, bodyCs⟩
    · refine ⟨h1, h2, ?_⟩
      intro he
      exact absurd he (by simp)
    · dsimp only
      by_cases hh : isHeadName (⟨headCs⟩ : String) = true
      · rw [if_neg (not_not_intro hh)]
        refine ⟨?_, mapSet_keys_nodup _ _ _ h2, ?_⟩
        · rcases h1 with ⟨hp, hs⟩ | ⟨hhd, hsne⟩
          · right
            refine ⟨?_, ?_⟩
            · rw [hp, hs, if_pos rfl]
              rfl
            · rw [hs, if_pos rfl]
              exact headName_ne_empty _ hh
          · have hmne : st.productions ≠ [] := by
              intro h0
              rw [h0] at hhd
              exact Option.noConfusion hhd
            right
            refine ⟨?_, ?_⟩
            · rw [mapSet_head_key st.productions _ _ hmne, if_neg hsne]
              exact hhd
            · rw [if_neg hsne]
              exact hsne
        · intro he
          have hpair := List.append_eq_nil.mp he
          have hold := h3 hpair.1
          have hscan := altScan_no_errors (i + 1) ⟨headCs⟩
            (lineAlternatives ⟨bodyCs⟩) hpair.2
          intro e hme
          rcases mem_mapSet_weak _ _ _ e hme with heq | hin
          · rw [heq]
            refine ⟨hh, ?_, ?_⟩
            · intro h0
              rcases List.append_eq_nil.mp h0 with ⟨-, hnew⟩
              rw [hscan.2] at hnew
              rcases halts : lineAlternatives (⟨bodyCs⟩ : String) with _ | ⟨a0, r⟩
              · exact lineAlternatives_ne_nil _ halts
              · rw [halts] at hnew
                exact absurd hnew (by simp)
            · intro b hbm
              rcases List.mem_append.mp hbm with hbo | hbn
              · rcases hget : mapGet st.productions (⟨headCs⟩ : String) with _ | bs0
                · rw [hget] at hbo
                  exact absurd hbo (by simp)
                · rw [hget] at hbo
                  exact (hold (⟨headCs⟩, bs0) (mapGet_mem _ _ _ hget)).2.2 b hbo
              · rw [hscan.2] at hbn
                rcases List.mem_map.mp hbn with ⟨a, ham, rfl⟩
                have hane : a ≠ "" := hscan.1 a ham
                rcases List.mem_map.mp
                  (show a ∈ (splitCh '|' (⟨bodyCs⟩ : String).data).map
                    (fun cs => (⟨trimL cs⟩ : String)) from ham) with ⟨part, hpart, rfl⟩
                refine parseSymbols_wf _ (ne_empty_data _ hane) ?_ ?_
                · exact trimL_idem part
                · intro hc
                  exact mem_splitCh_no_sep '|' _ part hpart (trimL_subset part '|' hc)
          · exact hold e hin
      · rw [if_pos hh]
        refine ⟨h1, h2, ?_⟩
        intro he
        exact absurd he (by simp)

theorem processLines_inv : ∀ (ls : List String) (i : Nat) (st : ParseState),
    StInv st → StInv (processLines i ls st) := by
  intro ls
  induction ls with
  | nil => intro i st h; exact h
  | cons l rest ih =>
    intro i st h
    rw [processLines_cons]
    exact ih (i + 1) _ (processLine_inv i l st h)

theorem parse_success_wf (input : String) (G : Grammar)
    (hp : parseGrammar input = (some G, [])) : GrammarWF G := by
  rw [parseGrammar_via input _ rfl] at hp
  generalize hgen : processLines 0
    ((splitCh '\n' input.data).map (fun cs => (⟨cs⟩ : String))) ⟨[], [], [], ""⟩ = st at hp
  have hinv : StInv st := by
    rw [← hgen]
    exact processLines_inv _ _ _
      ⟨Or.inl ⟨rfl, rfl⟩, by simp, by intro _ e he; cases he⟩
  obtain ⟨herrs, hg⟩ := finishParse_success _ _ _ hp
  rcases List.append_eq_nil.mp herrs with ⟨h12, hundef⟩
  rcases List.append_eq_nil.mp h12 with ⟨herr0, hextra⟩
  have hprodne : st.productions ≠ [] := by
    intro hpn
    rw [if_pos ⟨hpn, herr0⟩] at hextra
    exact absurd hextra (by simp)
  obtain ⟨hstarts, hnd, hwfc⟩ := hinv
  rcases hstarts with ⟨hpn, -⟩ | ⟨hhead, -⟩
  · exact absurd hpn hprodne
  have hwf := hwfc herr0
  have hund := (undefinedErrors_nil_iff _ _).mp hundef
  rw [← hg]
  refine ⟨hprodne, hhead, hnd, hwf, ?_⟩
  intro e he b hb s hs hty
  exact hund s.value (classifyAll_complete st.productions st.nonTerminals e he b hb s hs hty)

theorem serialize_reparse (G : Grammar) (hG : GrammarWF G) :
    parseGrammar (grammarToString G) =
      (some ⟨G.startSymbol,
        (classifyAll G.productions (G.productions.map Prod.fst)).1,
        (classifyAll G.productions (G.productions.map Prod.fst)).2,
        G.productions⟩, []) := by
  obtain ⟨hne, hstart, hnd, hwf, hclo⟩ := hG
  have hlineschars : ∀ e ∈ G.productions, '\n' ∉ (formatProduction e.1 e.2).data := by
    intro e he hmem
    rw [formatProduction_data] at hmem
    rcases List.mem_append.mp hmem with h | h
    · exact absurd (headName_chars_not_ws e.1.data (hwf e he).1 '\n' h) (by decide)
    · rcases List.mem_cons.mp h with h' | h
      · exact absurd h' (by decide)
      · rcases List.mem_cons.mp h with h' | h
        · exact absurd h' (by decide)
        · rcases List.mem_cons.mp h with h' | h
          · exact absurd h' (by decide)
          · rcases List.mem_cons.mp h with h' | h
            · exact absurd h' (by decide)
            · rcases serAlts_chars e.2 (hwf e he).2.2 '\n' h with h' | h' | h'
              · exact absurd h' (by decide)
              · exact absurd h' (by decide)
              · exact absurd h' (by decide)
  have hlines : (splitCh '\n' (grammarToString G).data).map (fun cs => (⟨cs⟩ : String)) =
      G.productions.map (fun p => formatProduction p.1 p.2) := by
    rw [grammarToString_wf G hne hstart hnd]
    rw [show (joinSep "\n" (G.productions.map (fun p => formatProduction p.1 p.2))).data =
        interL ['\n'] ((G.productions.map (fun p => formatProduction p.1 p.2)).map String.data)
      from rfl]
    rw [splitCh_interL '\n' _
      (by
        rcases List.exists_cons_of_ne_nil hne with ⟨p, rest, hps⟩
        rw [hps]
        simp)
      (by
        intro p hp
        rw [List.map_map] at hp
        rcases List.mem_map.mp hp with ⟨e, he, rfl⟩
        exact hlineschars e he)]
    rw [List.map_map]
    have hid : List.map ((fun cs => (⟨cs⟩ : String)) ∘ String.data)
        (G.productions.map (fun p => formatProduction p.1 p.2)) =
        List.map id (G.productions.map (fun p => formatProduction p.1 p.2)) :=
      List.map_congr_left (fun a _ => rfl)
    rw [hid, List.map_id]
  have hst := processLines_serialized G ⟨hne, hstart, hnd, hwf, hclo⟩
  rw [parseGrammar_via (grammarToString G)
    ⟨[], G.productions, G.productions.map Prod.fst, G.startSymbol⟩
    (by rw [hlines]; exact hst)]
  dsimp only
  rw [if_neg (fun hc => hne hc.1)]
  rw [List.append_nil, List.nil_append]
  rw [(undefinedErrors_nil_iff _ _).mpr ?_]
  · unfold finishParse
    rw [if_pos rfl]
  · intro nt hnt
    rcases classifyAll_sources G.productions (G.productions.map Prod.fst) nt hnt with
      h | ⟨e, he, b, hb, s, hs, hty, hv⟩
    · left
      exact key_mem_isSome G.productions nt h
    · rcases hclo e he b hb s hs hty with h2 | h2
      · left
        rw [← hv]
        exact h2
      · right
        rw [← hv]
        exact h2

/-- C3: for every input that `parseGrammar` accepts with zero errors, yielding
    grammar G, re-parsing the serialization `grammarToString G` succeeds with
    zero errors and yields a grammar with the same start symbol and the very
    same ordered productions map — same head order and same bodies, symbol
    tags and values included. -/
theorem parse_serialize_roundtrip (input : String) (G : Grammar)
    (hp : parseGrammar input = (some G, [])) :
    ∃ G2 : Grammar, parseGrammar (grammarToString G) = (some G2, []) ∧
      G2.startSymbol = G.startSymbol ∧ G2.productions = G.productions :=
  ⟨_, serialize_reparse G (parse_success_wf input G hp), rfl, rfl⟩

theorem parse_serialize_roundtrip_witness :
    ∃ G2 : Grammar, parseGrammar (grammarToString gC4) = (some G2, []) ∧
      G2.startSymbol = gC4.startSymbol ∧ G2.productions = gC4.productions :=
  parse_serialize_roundtrip "A -> a A b | ε" gC4 (by decide)

end CFG
